import Mathlib

/-!
Verification of the localflare repository against its specification.

The development shallowly embeds the TypeScript sources:

* `FileTree.buildFileTree` embeds `buildFileTree` from
  `packages/dashboard/src/components/r2/FileTree.tsx`;
* `DemoTree.buildFileTree` embeds the (textually identical) `buildFileTree`
  from `demo-app/src/client/components/r2/FileTree.tsx`;
* `D1Gen` embeds `dummy-data-generator.ts` (faker calls are modelled
  symbolically by `GenSpec`, which records which class of random value the
  code draws; random draws are modelled by an explicit choice oracle);
* `Counter` embeds the `Counter` durable object and its routes from the
  playground worker;
* `Routes` embeds the read-by-key REST handlers of the playground worker;
* `Core` embeds the Miniflare-option construction of `LocalFlare.start`.

JavaScript built-ins used by those sources (`String.prototype.split`,
`join`, `endsWith`, `replace` with a string pattern, `toUpperCase`,
`toLowerCase`, substring test via `includes`) are modelled by executable
char-list functions below.  `localeCompare` is modelled as code-point
lexicographic comparison.  `Array.prototype.sort` is modelled by a stable
sort with the source's comparator.
-/

/-- Model of JavaScript `a.startsWith(b)` at char-list level (`leadsWith p s`
is true when `p` is an initial run of `s`). -/
def leadsWith : List Char → List Char → Bool
  | [], _ => true
  | _ :: _, [] => false
  | a :: as, b :: bs => a == b && leadsWith as bs

/-- Model of JavaScript `s.includes(needle)` (substring test). -/
def hasSub (needle : String) : List Char → Bool
  | [] => needle.data.isEmpty
  | c :: cs => leadsWith needle.data (c :: cs) || hasSub needle cs

/-- Model of JavaScript `s.split(sep)` for a one-character separator,
at char-list level. -/
def splitCh (sep : Char) : List Char → List (List Char)
  | [] => [[]]
  | c :: cs =>
    if c == sep then [] :: splitCh sep cs
    else match splitCh sep cs with
      | [] => [[c]]
      | g :: gs => (c :: g) :: gs

/-- Model of JavaScript `key.split("/")`. -/
def splitSlash (s : String) : List String :=
  (splitCh '/' s.data).map String.mk

/-- Model of JavaScript `parts.join("/")`. -/
def joinSlash (parts : List String) : String :=
  String.mk (List.intercalate ['/'] (parts.map String.data))

/-- Model of JavaScript `s.endsWith(suffix)`. -/
def endsWithS (s sfx : String) : Bool :=
  leadsWith sfx.data.reverse s.data.reverse

/-- Model of JavaScript `s.replace(pat, repl)` with a string pattern:
only the leftmost occurrence is replaced. -/
def replFirst (pat repl : List Char) : List Char → List Char
  | [] => []
  | c :: cs =>
    if leadsWith pat (c :: cs) then repl ++ (c :: cs).drop pat.length
    else c :: replFirst pat repl cs

/-- Model of JavaScript `s.replace(pat, repl)` at string level. -/
def replaceFirstS (s pat repl : String) : String :=
  String.mk (replFirst pat.data repl.data s.data)

/-- Model of JavaScript `s.toUpperCase()` (ASCII range, as used by the
sources on SQL type names). -/
def toUpperS (s : String) : String :=
  String.mk (s.data.map Char.toUpper)

/-- Model of JavaScript `s.toLowerCase()` (ASCII range). -/
def toLowerS (s : String) : String :=
  String.mk (s.data.map Char.toLower)

/-- Code-point lexicographic order on char lists; model of a non-positive
`localeCompare` result. -/
def lexLe : List Char → List Char → Bool
  | [], _ => true
  | _ :: _, [] => false
  | a :: as, b :: bs => a < b || (a == b && lexLe as bs)

/-- Code-point lexicographic order on strings. -/
def strLe (a b : String) : Bool := lexLe a.data b.data

/-- Model of a JavaScript object built by `Object.fromEntries`: a later
entry for the same key overrides an earlier one. -/
def jsLookup (pairs : List (String × String)) (k : String) : Option String :=
  pairs.foldl (fun acc p => if p.1 == k then some p.2 else acc) none

/-! ## The R2 file-tree data model (`FileTree.tsx`, both copies) -/

/-- The `type` field of a `TreeNode` (`"file" | "folder"`). -/
inductive NodeType where
  | file
  | folder
deriving DecidableEq, Repr

/-- The `TreeNode` interface: `name`, `path`, `type`, optional `size`,
optional `children`. -/
inductive TreeNode where
  | mk (name path : String) (ntype : NodeType) (size : Option Int)
       (children : Option (List TreeNode))

def TreeNode.name : TreeNode → String
  | ⟨nm, _, _, _, _⟩ => nm

def TreeNode.path : TreeNode → String
  | ⟨_, p, _, _, _⟩ => p

def TreeNode.ntype : TreeNode → NodeType
  | ⟨_, _, t, _, _⟩ => t

def TreeNode.size : TreeNode → Option Int
  | ⟨_, _, _, sz, _⟩ => sz

def TreeNode.children : TreeNode → Option (List TreeNode)
  | ⟨_, _, _, _, ch⟩ => ch

/-- The `R2ObjectItem` interface: `key` and `size`. -/
structure R2ObjectItem where
  key : String
  size : Int
deriving DecidableEq, Repr

namespace FileTree

/-- Model of `currentLevel.find((node) => node.name === part)`. -/
def findNode (L : List TreeNode) (nm : String) : Option TreeNode :=
  L.find? (fun n => n.name == nm)

/-- Replacement of the children of the first node named `nm`; models the
in-place mutation of the node returned by `find`. -/
def setChildrenOfFirst (L : List TreeNode) (nm : String)
    (ch : List TreeNode) : List TreeNode :=
  match L with
  | [] => []
  | ⟨nm', p, t, sz, ch₀⟩ :: ns =>
    if nm' == nm then ⟨nm', p, t, sz, some ch⟩ :: ns
    else ⟨nm', p, t, sz, ch₀⟩ :: setChildrenOfFirst ns nm ch

/-- The first insertion loop of `buildFileTree` (lines 86-115), for one
object.  `pre` is the already-consumed prefix of `parts` (needed for
`currentPath = parts.slice(0, i + 1).join("/")`), `rest` the remaining
parts.  A push lands at the end of the level; descending into a pushed or
found folder is expressed by rebuilding its `children`; a found node
without `children` (a file) leaves `currentLevel` unchanged, exactly as in
the source. -/
def ins (sz : Int) (pre rest : List String) (level : List TreeNode) :
    List TreeNode :=
  match rest with
  | [] => level
  | p :: rs =>
    if p = "" then ins sz (pre ++ [p]) rs level
    else
      let isLast := rs.isEmpty
      let currentPath := joinSlash (pre ++ [p])
      match findNode level p with
      | none =>
        if isLast then
          level ++ [⟨p, currentPath, .file, some sz, none⟩]
        else
          level ++ [⟨p, currentPath, .folder, none,
                     some (ins sz (pre ++ [p]) rs [])⟩]
      | some n =>
        if isLast then level
        else
          match n.children with
          | some ch => setChildrenOfFirst level p (ins sz (pre ++ [p]) rs ch)
          | none => ins sz (pre ++ [p]) rs level

/-- The second insertion loop of `buildFileTree` (lines 125-146), which
re-adds folders for `.keep` markers: every pushed node is a folder. -/
def keepIns (pre rest : List String) (level : List TreeNode) :
    List TreeNode :=
  match rest with
  | [] => level
  | p :: rs =>
    if p = "" then keepIns (pre ++ [p]) rs level
    else
      let currentPath := joinSlash (pre ++ [p])
      match findNode level p with
      | none =>
        level ++ [⟨p, currentPath, .folder, none,
                   some (keepIns (pre ++ [p]) rs [])⟩]
      | some n =>
        match n.children with
        | some ch => setChildrenOfFirst level p (keepIns (pre ++ [p]) rs ch)
        | none => keepIns (pre ++ [p]) rs level

/-- The sort comparator of `sortNodes` as a boolean `≤`: `nodeLe a b` holds
when the comparator returns a non-positive number on `(a, b)` (folders
first, then code-point order on names, modelling `localeCompare`). -/
def nodeLe (a b : TreeNode) : Bool :=
  if a.ntype == b.ntype then strLe a.name b.name else a.ntype == .folder

/-- The comparator as a decidable relation for sorting. -/
def nodeR (a b : TreeNode) : Prop := nodeLe a b = true

instance : DecidableRel nodeR := fun a b => by
  unfold nodeR; infer_instance

mutual
/-- Recursive part of `sortNodes`: sort the `children` of every node.  The
source sorts a level first and then recursively sorts children; since the
comparator only reads `type` and `name`, sorting children first yields the
same tree and keeps the recursion structural. -/
def sortEach : List TreeNode → List TreeNode
  | [] => []
  | n :: ns => sortOne n :: sortEach ns

def sortOne : TreeNode → TreeNode
  | ⟨nm, p, t, sz, none⟩ => ⟨nm, p, t, sz, none⟩
  | ⟨nm, p, t, sz, some ch⟩ =>
    ⟨nm, p, t, sz, some (List.insertionSort nodeR (sortEach ch))⟩
end

/-- Model of `sortNodes` (lines 152-164): a stable sort of every level by
the comparator. -/
def sortNodes (L : List TreeNode) : List TreeNode :=
  List.insertionSort nodeR (sortEach L)

/-- Model of `buildFileTree` (lines 78-167). -/
def buildFileTree (objects : List R2ObjectItem)
    (hideKeepFiles : Bool := true) : List TreeNode :=
  let filteredObjects :=
    if hideKeepFiles then
      objects.filter
        (fun o => !(endsWithS o.key "/.keep") && o.key != ".keep")
    else objects
  let root₁ := filteredObjects.foldl
    (fun L o => ins o.size [] (splitSlash o.key) L) []
  let root₂ :=
    if hideKeepFiles then
      objects.foldl
        (fun L o =>
          if endsWithS o.key "/.keep" then
            keepIns [] (splitSlash (replaceFirstS o.key "/.keep" "")) L
          else L)
        root₁
    else root₁
  sortNodes root₂

/-- The phase-one object list of `buildFileTree` (the `.keep` filter). -/
def filteredObjects (objects : List R2ObjectItem) (hideKeepFiles : Bool) :
    List R2ObjectItem :=
  if hideKeepFiles then
    objects.filter (fun o => !(endsWithS o.key "/.keep") && o.key != ".keep")
  else objects

end FileTree

/-! ## Observation predicates on trees (all executable) -/

/-- The non-empty segments of a parts list (the segments that contribute
nodes). -/
def neSegs (parts : List String) : List String :=
  parts.filter (fun s => s != "")

mutual
/-- `chainLevel L segs sz pth` holds when the sibling list `L` contains a
nested chain of nodes named after `segs`, all intermediate nodes folders,
ending in a file node of size `sz` and path `pth`. -/
def chainLevel : List TreeNode → List String → Int → String → Bool
  | [], _, _, _ => false
  | n :: ns, segs, sz, pth => chainNode n segs sz pth || chainLevel ns segs sz pth

def chainNode : TreeNode → List String → Int → String → Bool
  | ⟨nm, p, t, szf, _⟩, [s], sz, pth =>
    nm == s && t == .file && szf == some sz && p == pth
  | ⟨nm, _, t, _, some ch⟩, s :: r :: rs, sz, pth =>
    nm == s && t == .folder && chainLevel ch (r :: rs) sz pth
  | ⟨_, _, _, _, none⟩, _ :: _ :: _, _, _ => false
  | _, [], _, _ => false
end

mutual
/-- Deep search for a node with a given name. -/
def hasNodeNamed : List TreeNode → String → Bool
  | [], _ => false
  | n :: ns, nm => nodeHasName n nm || hasNodeNamed ns nm

def nodeHasName : TreeNode → String → Bool
  | ⟨nm', _, _, _, none⟩, nm => nm' == nm
  | ⟨nm', _, _, _, some ch⟩, nm => nm' == nm || hasNodeNamed ch nm
end

mutual
/-- Every node in the tree is a folder. -/
def allFolders : List TreeNode → Bool
  | [] => true
  | n :: ns => folderNode n && allFolders ns

def folderNode : TreeNode → Bool
  | ⟨_, _, t, _, none⟩ => t == .folder
  | ⟨_, _, t, _, some ch⟩ => t == .folder && allFolders ch
end

mutual
/-- Every sibling list, at every level, is sorted by the source comparator
(folders before files; code-point order on names within a type). -/
def sortedLevels : List TreeNode → Bool
  | [] => true
  | [n] => sortedInner n
  | a :: b :: rest => FileTree.nodeLe a b && sortedInner a && sortedLevels (b :: rest)

def sortedInner : TreeNode → Bool
  | ⟨_, _, _, _, none⟩ => true
  | ⟨_, _, _, _, some ch⟩ => sortedLevels ch
end

mutual
/-- Every sibling list, at every level, is in alphabetic order by node name
(the ordering property claimed by C2). -/
def alphaLevels : List TreeNode → Bool
  | [] => true
  | [n] => alphaInner n
  | a :: b :: rest => strLe a.name b.name && alphaInner a && alphaLevels (b :: rest)

def alphaInner : TreeNode → Bool
  | ⟨_, _, _, _, none⟩ => true
  | ⟨_, _, _, _, some ch⟩ => alphaLevels ch
end

/-! ## The demo-app copy of the file-tree builder
(`demo-app/src/client/components/r2/FileTree.tsx`, lines 99-188; the source
is textually identical to the dashboard copy, and each definition below is
translated from the demo-app file). -/

namespace DemoTree

def findNode (L : List TreeNode) (nm : String) : Option TreeNode :=
  L.find? (fun n => n.name == nm)

def setChildrenOfFirst (L : List TreeNode) (nm : String)
    (ch : List TreeNode) : List TreeNode :=
  match L with
  | [] => []
  | ⟨nm', p, t, sz, ch₀⟩ :: ns =>
    if nm' == nm then ⟨nm', p, t, sz, some ch⟩ :: ns
    else ⟨nm', p, t, sz, ch₀⟩ :: setChildrenOfFirst ns nm ch

def ins (sz : Int) (pre rest : List String) (level : List TreeNode) :
    List TreeNode :=
  match rest with
  | [] => level
  | p :: rs =>
    if p = "" then ins sz (pre ++ [p]) rs level
    else
      let isLast := rs.isEmpty
      let currentPath := joinSlash (pre ++ [p])
      match findNode level p with
      | none =>
        if isLast then
          level ++ [⟨p, currentPath, .file, some sz, none⟩]
        else
          level ++ [⟨p, currentPath, .folder, none,
                     some (ins sz (pre ++ [p]) rs [])⟩]
      | some n =>
        if isLast then level
        else
          match n.children with
          | some ch => setChildrenOfFirst level p (ins sz (pre ++ [p]) rs ch)
          | none => ins sz (pre ++ [p]) rs level

def keepIns (pre rest : List String) (level : List TreeNode) :
    List TreeNode :=
  match rest with
  | [] => level
  | p :: rs =>
    if p = "" then keepIns (pre ++ [p]) rs level
    else
      let currentPath := joinSlash (pre ++ [p])
      match findNode level p with
      | none =>
        level ++ [⟨p, currentPath, .folder, none,
                   some (keepIns (pre ++ [p]) rs [])⟩]
      | some n =>
        match n.children with
        | some ch => setChildrenOfFirst level p (keepIns (pre ++ [p]) rs ch)
        | none => keepIns (pre ++ [p]) rs level

def nodeLe (a b : TreeNode) : Bool :=
  if a.ntype == b.ntype then strLe a.name b.name else a.ntype == .folder

def nodeR (a b : TreeNode) : Prop := nodeLe a b = true

instance : DecidableRel nodeR := fun a b => by
  unfold nodeR; infer_instance

mutual
def sortEach : List TreeNode → List TreeNode
  | [] => []
  | n :: ns => sortOne n :: sortEach ns

def sortOne : TreeNode → TreeNode
  | ⟨nm, p, t, sz, none⟩ => ⟨nm, p, t, sz, none⟩
  | ⟨nm, p, t, sz, some ch⟩ =>
    ⟨nm, p, t, sz, some (List.insertionSort nodeR (sortEach ch))⟩
end

def sortNodes (L : List TreeNode) : List TreeNode :=
  List.insertionSort nodeR (sortEach L)

def buildFileTree (objects : List R2ObjectItem) (hideKeepFiles : Bool) :
    List TreeNode :=
  let filteredObjects :=
    if hideKeepFiles then
      objects.filter
        (fun o => !(endsWithS o.key "/.keep") && o.key != ".keep")
    else objects
  let root₁ := filteredObjects.foldl
    (fun L o => ins o.size [] (splitSlash o.key) L) []
  let root₂ :=
    if hideKeepFiles then
      objects.foldl
        (fun L o =>
          if endsWithS o.key "/.keep" then
            keepIns [] (splitSlash (replaceFirstS o.key "/.keep" "")) L
          else L)
        root₁
    else root₁
  sortNodes root₂

end DemoTree

/-! ## The dummy-data generator (`dummy-data-generator.ts`) -/

namespace D1Gen

/-- A column as produced by `PRAGMA table_info` (`D1Column`): `name`,
declared `type`, and `pk` flag. -/
structure D1Column where
  name : String
  type : String
  pk : Nat
deriving DecidableEq, Repr

/-- A table schema (`D1TableSchema`), reduced to the fields the generator
reads. -/
structure D1TableSchema where
  name : String
  columns : List D1Column
deriving DecidableEq, Repr

/-- Symbolic description of the class of value a faker call draws; this is
the codomain of the embedded `generateValueForColumn`.  `skip` stands for
the `undefined` return. -/
inductive GenSpec where
  | skip
  | isoDatetime
  | dateOnly
  | timeOnly
  | intBetween (lo hi : Int)
  | floatBetween (lo hi : Int)
  | boolBit
  | nullValue
  | randomWords
deriving DecidableEq, Repr

/-- The result kind of `matchesDateTimePattern`. -/
inductive DTKind where
  | dt
  | d
  | t
deriving DecidableEq, Repr

/-- Strings matching `^(h)_?(t)$` for heads `h` and tails `t`: each head is
combined with each tail, with and without the optional underscore. -/
def withUnd (heads tails : List String) : List String :=
  heads.flatMap (fun h => tails.flatMap (fun t => [h ++ t, h ++ "_" ++ t]))

/-- The finite matches of `TIME_ONLY_PATTERNS`
(`/^(start|end)_?time$/i` and `/^time$/i`). -/
def timeOnlyStrings : List String :=
  withUnd ["start", "end"] ["time"] ++ ["time"]

/-- The finite matches of `DATE_ONLY_PATTERNS` other than the
suffix pattern `/^.*_date$/i`. -/
def dateOnlyStrings : List String :=
  withUnd ["birth", "event", "start", "end", "due"] ["date"] ++ ["date"]

/-- The finite matches of `DATE_TIME_PATTERNS` other than `/^timestamp$/i`
and the suffix pattern `/^.*_timestamp$/i`: the patterns
`/^(created|updated|deleted|modified|published|expires?)_?at$/i`,
`/^(created|updated|deleted|modified|published)_?(date|time|on)$/i`,
`/^(start|end|begin|finish|due|birth|event)_?(date|time|at)?$/i` and
`/^date_?(of|created|updated|time)?$/i` (an optional tail group also
matches the empty tail). -/
def dateTimeStrings : List String :=
  withUnd ["created", "updated", "deleted", "modified", "published",
           "expire", "expires"] ["at"] ++
  withUnd ["created", "updated", "deleted", "modified", "published"]
    ["date", "time", "on"] ++
  withUnd ["start", "end", "begin", "finish", "due", "birth", "event"]
    ["", "date", "time", "at"] ++
  withUnd ["date"] ["", "of", "created", "updated", "time"]

/-- Model of `matchesDateTimePattern`: time-only patterns first, then
date-only, then datetime, on the lowercased name. -/
def matchesDateTimePattern (name : String) : Option DTKind :=
  let lowerName := toLowerS name
  if timeOnlyStrings.contains lowerName then some .t
  else if dateOnlyStrings.contains lowerName || endsWithS lowerName "_date" then
    some .d
  else if dateTimeStrings.contains lowerName || lowerName == "timestamp" ||
      endsWithS lowerName "_timestamp" then
    some .dt
  else none

/-- Model of `generateValueForColumn` (lines 66-124): the dispatch on the
uppercased type name, and on the column name for the remaining
text-affinity types. -/
def generateValueForColumn (c : D1Column) : GenSpec :=
  if c.pk == 1 && toUpperS c.type == "INTEGER" then .skip
  else
    let t := toUpperS c.type
    if hasSub "DATETIME" t.data || hasSub "TIMESTAMP" t.data then .isoDatetime
    else if t == "DATE" then .dateOnly
    else if t == "TIME" then .timeOnly
    else if hasSub "INT" t.data then .intBetween 1 1000
    else if hasSub "REAL" t.data || hasSub "FLOAT" t.data ||
        hasSub "DOUBLE" t.data then .floatBetween 0 100
    else if hasSub "BOOL" t.data then .boolBit
    else if hasSub "NUMERIC" t.data || hasSub "DECIMAL" t.data then
      .floatBetween 0 1000
    else if hasSub "BLOB" t.data then .nullValue
    else
      match matchesDateTimePattern c.name with
      | some .dt => .isoDatetime
      | some .d => .dateOnly
      | some .t => .timeOnly
      | none => .randomWords

/-- A cell of the generated row: either a value picked from the
foreign-key list, or a symbolic type-generated value. -/
inductive RowVal (α : Type) where
  | fk (v : α)
  | gen (g : GenSpec)
deriving DecidableEq, Repr

/-- The body of the loop of `generateDummyRow` for one column: if the
`foreignKeyValues` map supplies a non-empty list, a random element of that
list is assigned (`row[col.name] = fkValues[...]`) and the type dispatch is
skipped (`continue`); otherwise `generateValueForColumn` runs, and the
value is assigned unless it is `undefined`. -/
def applyColumn {α : Type} (fkv : String → List α) (choice : String → Nat)
    (row : String → Option (RowVal α)) (col : D1Column) :
    String → Option (RowVal α) :=
  let fkVals := fkv col.name
  if h : 0 < fkVals.length then
    fun k =>
      if k == col.name then
        some (.fk (fkVals.get ⟨choice col.name % fkVals.length,
                               Nat.mod_lt _ h⟩))
      else row k
  else
    match generateValueForColumn col with
    | .skip => row
    | g => fun k => if k == col.name then some (.gen g) else row k

/-- Model of `generateDummyRow` (lines 131-154).  `fkv` models the
`foreignKeyValues` map (a missing entry is the empty list), `choice`
models the `Math.random()` draw used to index into a foreign-key list.
The row is the final assignment function: later columns override earlier
ones of the same name, an absent entry is `none`. -/
def generateDummyRow {α : Type} (schema : D1TableSchema)
    (fkv : String → List α) (choice : String → Nat) :
    String → Option (RowVal α) :=
  schema.columns.foldl (applyColumn fkv choice) (fun _ => none)

end D1Gen

/-! ## The `Counter` durable object and its routes (playground worker) -/

namespace Counter

/-- Model of `Counter.fetch`: the stored value is read from storage (a
missing entry reads as `0`), then the path dispatch runs; the result is
the JSON `value` of the response together with the storage cell after the
request. -/
def counterFetch (path : String) (stored : Option Int) : Int × Option Int :=
  let value := stored.getD 0
  if path == "/increment" then (value + 1, some (value + 1))
  else if path == "/decrement" then (value - 1, some (value - 1))
  else if path == "/reset" then ((0 : Int), some 0)
  else (value, stored)

/-- The four counter REST routes of the worker. -/
inductive CounterRoute where
  | getValue
  | increment
  | decrement
  | reset
deriving DecidableEq, Repr

/-- The durable-object path each route fetches
(`GET /api/counter/:name` fetches `http://counter/`, the three POST routes
fetch `/increment`, `/decrement`, `/reset`). -/
def routePath : CounterRoute → String
  | .getValue => "/"
  | .increment => "/increment"
  | .decrement => "/decrement"
  | .reset => "/reset"

/-- One request to the counter named `name`: `idFromName` addresses the
per-name storage cell, the object's `fetch` runs on that cell, and only
that cell is written back. -/
def doStep (store : String → Option Int) (name path : String) :
    Int × (String → Option Int) :=
  let r := counterFetch path (store name)
  (r.1, fun n => if n == name then r.2 else store n)

end Counter

/-! ## The read-by-key REST routes (playground worker) -/

namespace Routes

/-- Model of `GET /api/users/:id`: the handler returns 404 with an error
body when the D1 `first()` lookup is `null`, and the row as JSON
otherwise. -/
def getUserById {α : Type} (queryFirst : Option α) : Nat × (α ⊕ String) :=
  match queryFirst with
  | none => (404, Sum.inr "User not found")
  | some u => (200, Sum.inl u)

/-- Model of `GET /api/kv/:key`: 404 with an error body when the KV `get`
is `null`, the `{key, value}` JSON otherwise. -/
def getKvByKey (key : String) (value : Option String) :
    Nat × ((String × String) ⊕ String) :=
  match value with
  | none => (404, Sum.inr "Key not found")
  | some v => (200, Sum.inl (key, v))

/-- Model of `GET /api/files/:key`: 404 with an error body when the R2
`get` is `null`, a 200 response streaming the object otherwise. -/
def getFileByKey {α : Type} (obj : Option α) : Nat × (α ⊕ String) :=
  match obj with
  | none => (404, Sum.inr "File not found")
  | some o => (200, Sum.inl o)

end Routes

/-! ## Miniflare option construction (`packages/core/src/localflare.ts`) -/

namespace Core

/-- A discovered D1 binding (`binding`, `database_id`). -/
structure D1BindingCfg where
  binding : String
  database_id : String
deriving DecidableEq, Repr

/-- A discovered KV binding (`binding`, `id`). -/
structure KVBindingCfg where
  binding : String
  id : String
deriving DecidableEq, Repr

/-- A discovered R2 binding (`binding`, `bucket_name`). -/
structure R2BindingCfg where
  binding : String
  bucket_name : String
deriving DecidableEq, Repr

/-- A discovered queue producer binding (`binding`, `queue`). -/
structure QueueProducerCfg where
  binding : String
  queue : String
deriving DecidableEq, Repr

/-- A discovered durable-object binding (`name`, `class_name`). -/
structure DOBindingCfg where
  name : String
  class_name : String
deriving DecidableEq, Repr

/-- The output of `discoverBindings`, as consumed by `LocalFlare.start`
(the `queues.producers` list is flattened into `queueProducers`). -/
structure DiscoveredBindings where
  d1 : List D1BindingCfg
  kv : List KVBindingCfg
  r2 : List R2BindingCfg
  queueProducers : List QueueProducerCfg
  durableObjects : List DOBindingCfg
deriving DecidableEq, Repr

/-- The binding-related entries of the Miniflare options object: `none`
models an absent property. -/
structure MiniflareBindingOptions where
  d1Databases : Option (List (String × String))
  kvNamespaces : Option (List (String × String))
  r2Buckets : Option (List (String × String))
  queueProducers : Option (List (String × String))
  durableObjects : Option (List (String × String))
deriving DecidableEq, Repr

/-- Model of `Only add bindings if they exist`: the property is set exactly
when the entry list is non-empty. -/
def addIfNonEmpty (pairs : List (String × String)) :
    Option (List (String × String)) :=
  if pairs.isEmpty then none else some pairs

/-- Model of the options construction in `LocalFlare.start` (lines
62-121): each binding kind is turned into `Object.fromEntries`-style
pairs, and added to the options exactly when non-empty. -/
def startOptions (b : DiscoveredBindings) : MiniflareBindingOptions :=
  let d1Databases := b.d1.map (fun d => (d.binding, d.database_id))
  let kvNamespaces := b.kv.map (fun k => (k.binding, k.id))
  let r2Buckets := b.r2.map (fun r => (r.binding, r.bucket_name))
  let queueProducers := b.queueProducers.map (fun q => (q.binding, q.queue))
  let durableObjects := b.durableObjects.map (fun d => (d.name, d.class_name))
  ⟨addIfNonEmpty d1Databases, addIfNonEmpty kvNamespaces,
   addIfNonEmpty r2Buckets, addIfNonEmpty queueProducers,
   addIfNonEmpty durableObjects⟩

end Core

/-- The dispatch table exactly as claim C3 states it: ordered guards on the
uppercased type name, with a final catch-all that yields random words
whenever the column name matches no date/time pattern. -/
def ClaimC3 : Prop :=
  ∀ c : D1Gen.D1Column,
    ((c.pk == 1 && toUpperS c.type == "INTEGER") = true →
      D1Gen.generateValueForColumn c = .skip)
    ∧ ((c.pk == 1 && toUpperS c.type == "INTEGER") = false →
        (hasSub "DATETIME" (toUpperS c.type).data ||
          hasSub "TIMESTAMP" (toUpperS c.type).data) = true →
        D1Gen.generateValueForColumn c = .isoDatetime)
    ∧ ((c.pk == 1 && toUpperS c.type == "INTEGER") = false →
        (hasSub "DATETIME" (toUpperS c.type).data ||
          hasSub "TIMESTAMP" (toUpperS c.type).data) = false →
        hasSub "INT" (toUpperS c.type).data = true →
        D1Gen.generateValueForColumn c = .intBetween 1 1000)
    ∧ ((c.pk == 1 && toUpperS c.type == "INTEGER") = false →
        (hasSub "DATETIME" (toUpperS c.type).data ||
          hasSub "TIMESTAMP" (toUpperS c.type).data) = false →
        hasSub "INT" (toUpperS c.type).data = false →
        (hasSub "REAL" (toUpperS c.type).data ||
          hasSub "FLOAT" (toUpperS c.type).data ||
          hasSub "DOUBLE" (toUpperS c.type).data) = true →
        D1Gen.generateValueForColumn c = .floatBetween 0 100)
    ∧ ((c.pk == 1 && toUpperS c.type == "INTEGER") = false →
        (hasSub "DATETIME" (toUpperS c.type).data ||
          hasSub "TIMESTAMP" (toUpperS c.type).data) = false →
        hasSub "INT" (toUpperS c.type).data = false →
        (hasSub "REAL" (toUpperS c.type).data ||
          hasSub "FLOAT" (toUpperS c.type).data ||
          hasSub "DOUBLE" (toUpperS c.type).data) = false →
        hasSub "BOOL" (toUpperS c.type).data = true →
        D1Gen.generateValueForColumn c = .boolBit)
    ∧ ((c.pk == 1 && toUpperS c.type == "INTEGER") = false →
        (hasSub "DATETIME" (toUpperS c.type).data ||
          hasSub "TIMESTAMP" (toUpperS c.type).data) = false →
        hasSub "INT" (toUpperS c.type).data = false →
        (hasSub "REAL" (toUpperS c.type).data ||
          hasSub "FLOAT" (toUpperS c.type).data ||
          hasSub "DOUBLE" (toUpperS c.type).data) = false →
        hasSub "BOOL" (toUpperS c.type).data = false →
        hasSub "BLOB" (toUpperS c.type).data = true →
        D1Gen.generateValueForColumn c = .nullValue)
    ∧ ((c.pk == 1 && toUpperS c.type == "INTEGER") = false →
        (hasSub "DATETIME" (toUpperS c.type).data ||
          hasSub "TIMESTAMP" (toUpperS c.type).data) = false →
        hasSub "INT" (toUpperS c.type).data = false →
        (hasSub "REAL" (toUpperS c.type).data ||
          hasSub "FLOAT" (toUpperS c.type).data ||
          hasSub "DOUBLE" (toUpperS c.type).data) = false →
        hasSub "BOOL" (toUpperS c.type).data = false →
        hasSub "BLOB" (toUpperS c.type).data = false →
        D1Gen.matchesDateTimePattern c.name = none →
        D1Gen.generateValueForColumn c = .randomWords)

/-- The key shape assumed by the amended C9: a `.keep` marker key removes
its `/.keep` suffix exactly once (the first occurrence of `/.keep` is the
final one) and the remaining folder segments contain no `.keep` segment;
any other key contains no `.keep` segment at all (or is exactly `.keep`). -/
def keepOk (key : String) : Bool :=
  if endsWithS key "/.keep" then
    (splitSlash (replaceFirstS key "/.keep" "") == (splitSlash key).dropLast)
    && decide (".keep" ∉ (splitSlash key).dropLast)
  else
    key == ".keep" || decide (".keep" ∉ splitSlash key)

/-- Descend a tree along path segments, by name lookup at each level,
entering `children` at folder nodes. -/
def nodeAt : List String → List TreeNode → Option TreeNode
  | [], _ => none
  | [s], L => FileTree.findNode L s
  | s :: r :: rs, L =>
    match FileTree.findNode L s with
    | some n =>
      match n.children with
      | some ch => nodeAt (r :: rs) ch
      | none => none
    | none => none

mutual
/-- Shape invariant of constructed nodes: files have no `children` entry,
folders have one, recursively well-formed. -/
inductive NodeWF : TreeNode → Prop where
  | fileWF (nm p : String) (sz : Option Int) :
      NodeWF ⟨nm, p, .file, sz, none⟩
  | folderWF (nm p : String) (sz : Option Int) (ch : List TreeNode) :
      LevelWF ch → NodeWF ⟨nm, p, .folder, sz, some ch⟩

/-- Shape invariant of sibling lists: pairwise distinct names, each node
well-formed. -/
inductive LevelWF : List TreeNode → Prop where
  | nil : LevelWF []
  | cons (n : TreeNode) (ns : List TreeNode) :
      NodeWF n → (∀ m ∈ ns, m.name ≠ n.name) → LevelWF ns →
      LevelWF (n :: ns)
end

/-- The node `n` with its children replaced, as `setChildrenOfFirst`
produces it. -/
def withChildren (n : TreeNode) (ch : List TreeNode) : TreeNode :=
  ⟨n.name, n.path, n.ntype, n.size, some ch⟩

/-- The parts list ends in a non-empty segment (no trailing slash). -/
def endsOk (parts : List String) : Prop :=
  parts ≠ [] ∧ parts.getLast? ≠ some ""

/-- The non-empty segments of an object's key. -/
def objSegs (o : R2ObjectItem) : List String := neSegs (splitSlash o.key)

/-- Two objects whose segment lists are not prefixes of one another (in
particular, distinct).  Keys that compare this way never collide in the
trie. -/
def NonComparable (o₁ o₂ : R2ObjectItem) : Prop :=
  ¬ (objSegs o₁ <+: objSegs o₂) ∧ ¬ (objSegs o₂ <+: objSegs o₁)

instance (parts : List String) : Decidable (endsOk parts) := by
  unfold endsOk; infer_instance

instance : DecidableRel NonComparable := fun o₁ o₂ => by
  unfold NonComparable; infer_instance

/-! ## Helper lemmas -/

theorem jsLookup_acc_of_none (k : String) :
    ∀ (xs : List (String × String)) (acc : Option String),
      (∀ q ∈ xs, q.1 ≠ k) →
      xs.foldl (fun acc p => if p.1 == k then some p.2 else acc) acc = acc := by
  intro xs
  induction xs with
  | nil => intro acc _; rfl
  | cons x xs ih =>
    intro acc h
    have hx : x.1 ≠ k := h x (List.mem_cons_self _ _)
    have hcond : (x.1 == k) = false := by simp [hx]
    simp only [List.foldl_cons, hcond, Bool.false_eq_true, if_false]
    exact ih acc (fun q hq => h q (List.mem_cons_of_mem _ hq))

theorem jsLookup_acc_irrel (k : String) :
    ∀ (xs : List (String × String)) (acc₁ acc₂ : Option String),
      (∃ q ∈ xs, q.1 = k) →
      xs.foldl (fun acc p => if p.1 == k then some p.2 else acc) acc₁ =
        xs.foldl (fun acc p => if p.1 == k then some p.2 else acc) acc₂ := by
  intro xs
  induction xs with
  | nil => intro _ _ h; rcases h with ⟨q, hq, _⟩; cases hq
  | cons x xs ih =>
    intro acc₁ acc₂ h
    by_cases hx : x.1 = k
    · have hcond : (x.1 == k) = true := by simp [hx]
      simp only [List.foldl_cons, hcond, if_true]
    · have hcond : (x.1 == k) = false := by simp [hx]
      simp only [List.foldl_cons, hcond, Bool.false_eq_true, if_false]
      rcases h with ⟨q, hq, hk⟩
      rcases List.mem_cons.mp hq with rfl | hq'
      · exact absurd hk hx
      · exact ih acc₁ acc₂ ⟨q, hq', hk⟩

theorem jsLookup_of_nodup (pairs : List (String × String))
    (hnd : (pairs.map Prod.fst).Nodup) :
    ∀ p ∈ pairs, jsLookup pairs p.1 = some p.2 := by
  induction pairs with
  | nil => intro p hp; cases hp
  | cons x xs ih =>
    intro p hp
    rcases List.mem_cons.mp hp with rfl | hp'
    · unfold jsLookup
      simp only [List.foldl_cons, beq_self_eq_true, if_pos rfl]
      apply jsLookup_acc_of_none
      intro q hq hqk
      have : q.1 ∈ xs.map Prod.fst := List.mem_map_of_mem _ hq
      rw [hqk] at this
      exact (List.nodup_cons.mp hnd).1 this
    · have hne : x.1 ≠ p.1 := by
        intro hcontra
        have : p.1 ∈ xs.map Prod.fst := List.mem_map_of_mem _ hp'
        rw [← hcontra] at this
        exact (List.nodup_cons.mp hnd).1 this
      have step : jsLookup (x :: xs) p.1 =
          xs.foldl (fun acc q => if q.1 == p.1 then some q.2 else acc)
            (if x.1 == p.1 then some x.2 else none) := rfl
      rw [step]
      have : jsLookup xs p.1 = some p.2 := ih (List.nodup_cons.mp hnd).2 p hp'
      calc xs.foldl (fun acc q => if q.1 == p.1 then some q.2 else acc)
            (if x.1 == p.1 then some x.2 else none)
          = xs.foldl (fun acc q => if q.1 == p.1 then some q.2 else acc) none := by
            apply jsLookup_acc_irrel
            exact ⟨p, hp', rfl⟩
        _ = some p.2 := this

/-! ## Claim theorems: the straightforward claims -/

/-- C7: `buildFileTree` is deterministic and stateless: two calls with equal
object lists and equal `hideKeepFiles` flags return equal trees; the
embedding is a pure function of its two arguments, so nothing outside them
can influence the result. -/
theorem buildFileTree_deterministic (objs₁ objs₂ : List R2ObjectItem)
    (f₁ f₂ : Bool) (hobjs : objs₁ = objs₂) (hflag : f₁ = f₂) :
    FileTree.buildFileTree objs₁ f₁ = FileTree.buildFileTree objs₂ f₂ := by
  subst hobjs; subst hflag; rfl

theorem buildFileTree_deterministic_witness :
    FileTree.buildFileTree [⟨"a/b", 1⟩] true =
      FileTree.buildFileTree [⟨"a/b", 1⟩] true :=
  buildFileTree_deterministic [⟨"a/b", 1⟩] [⟨"a/b", 1⟩] true true rfl rfl

/-- C5: every read-by-key route answers 404 with an error body exactly when
the wrapped lookup is `null`, otherwise it returns the looked-up value, and
its status is always one of 200 and 404 (no further failure semantics). -/
theorem read_routes_404_iff_null :
    (∀ (α : Type) (r : Option α),
        ((Routes.getUserById r).1 = 404 ↔ r = none)
        ∧ (r = none → Routes.getUserById r = (404, Sum.inr "User not found"))
        ∧ (∀ v, r = some v → Routes.getUserById r = (200, Sum.inl v))
        ∧ ((Routes.getUserById r).1 = 200 ∨ (Routes.getUserById r).1 = 404))
    ∧ (∀ (key : String) (r : Option String),
        ((Routes.getKvByKey key r).1 = 404 ↔ r = none)
        ∧ (r = none → Routes.getKvByKey key r = (404, Sum.inr "Key not found"))
        ∧ (∀ v, r = some v → Routes.getKvByKey key r = (200, Sum.inl (key, v)))
        ∧ ((Routes.getKvByKey key r).1 = 200 ∨ (Routes.getKvByKey key r).1 = 404))
    ∧ (∀ (α : Type) (r : Option α),
        ((Routes.getFileByKey r).1 = 404 ↔ r = none)
        ∧ (r = none → Routes.getFileByKey r = (404, Sum.inr "File not found"))
        ∧ (∀ v, r = some v → Routes.getFileByKey r = (200, Sum.inl v))
        ∧ ((Routes.getFileByKey r).1 = 200 ∨ (Routes.getFileByKey r).1 = 404)) := by
  refine ⟨fun α r => ?_, fun key r => ?_, fun α r => ?_⟩ <;>
    cases r <;>
      simp [Routes.getUserById, Routes.getKvByKey, Routes.getFileByKey]

theorem read_routes_404_iff_null_witness :
    Routes.getUserById (some (42 : Int)) = (200, Sum.inl 42)
    ∧ Routes.getKvByKey "color" none = (404, Sum.inr "Key not found") :=
  ⟨(read_routes_404_iff_null.1 Int (some 42)).2.2.1 42 rfl,
   (read_routes_404_iff_null.2.1 "color" none).2.1 rfl⟩

/-- C4: the `Counter` durable object increments, decrements and resets its
stored value and returns the new value; any other path returns the stored
value unchanged; a missing storage entry reads as 0; and `doStep` (one REST
request routed by counter name) touches only the addressed name, so the
value persists across requests to the same name. -/
theorem counter_semantics (store : String → Option Int) (name : String)
    (v : Int) :
    (Counter.counterFetch "/increment" (some v) = (v + 1, some (v + 1)))
    ∧ (Counter.counterFetch "/decrement" (some v) = (v - 1, some (v - 1)))
    ∧ (Counter.counterFetch "/reset" (some v) = (0, some 0))
    ∧ (∀ path, path ≠ "/increment" → path ≠ "/decrement" → path ≠ "/reset" →
        Counter.counterFetch path (some v) = (v, some v))
    ∧ (Counter.counterFetch "/increment" none = (1, some 1))
    ∧ (∀ path, path ≠ "/increment" → path ≠ "/decrement" → path ≠ "/reset" →
        Counter.counterFetch path none = (0, none))
    ∧ ((Counter.doStep store name "/increment").2 name =
        some ((store name).getD 0 + 1))
    ∧ (∀ path n, n ≠ name → (Counter.doStep store name path).2 n = store n)
    ∧ ((Counter.doStep ((Counter.doStep store name "/increment").2) name
          "/increment").1 = (store name).getD 0 + 2) := by
  refine ⟨rfl, rfl, rfl, ?_, rfl, ?_, ?_, ?_, ?_⟩
  · intro path h1 h2 h3
    simp [Counter.counterFetch, h1, h2, h3]
  · intro path h1 h2 h3
    simp [Counter.counterFetch, h1, h2, h3]
  · simp [Counter.doStep, Counter.counterFetch]
  · intro path n hn
    simp [Counter.doStep, hn]
  · simp [Counter.doStep, Counter.counterFetch]
    ring

theorem counter_semantics_witness :
    Counter.counterFetch "/status" (some 5) = (5, some 5)
    ∧ (Counter.doStep (fun _ => none) "alpha" "/increment").2 "beta" = none :=
  ⟨(counter_semantics (fun _ => none) "alpha" 5).2.2.2.1 "/status"
      (by decide) (by decide) (by decide),
   (counter_semantics (fun _ => none) "alpha" 5).2.2.2.2.2.2.2.1 "/increment"
      "beta" (by decide)⟩

/-- C6: the options passed to Miniflare contain a `d1Databases`
(respectively `kvNamespaces`, `r2Buckets`, `queueProducers`,
`durableObjects`) entry exactly when the corresponding discovered binding
list is non-empty, and (for distinct binding names) the entry maps every
binding name to its configured `database_id`, `id`, `bucket_name`, `queue`
or `class_name`. -/
theorem startOptions_bindings (b : Core.DiscoveredBindings)
    (h1 : (b.d1.map (fun d => d.binding)).Nodup)
    (h2 : (b.kv.map (fun k => k.binding)).Nodup)
    (h3 : (b.r2.map (fun r => r.binding)).Nodup)
    (h4 : (b.queueProducers.map (fun q => q.binding)).Nodup)
    (h5 : (b.durableObjects.map (fun d => d.name)).Nodup) :
    (((Core.startOptions b).d1Databases ≠ none ↔ b.d1 ≠ [])
      ∧ ∀ d ∈ b.d1, ∃ pairs, (Core.startOptions b).d1Databases = some pairs
          ∧ jsLookup pairs d.binding = some d.database_id)
    ∧ (((Core.startOptions b).kvNamespaces ≠ none ↔ b.kv ≠ [])
      ∧ ∀ k ∈ b.kv, ∃ pairs, (Core.startOptions b).kvNamespaces = some pairs
          ∧ jsLookup pairs k.binding = some k.id)
    ∧ (((Core.startOptions b).r2Buckets ≠ none ↔ b.r2 ≠ [])
      ∧ ∀ r ∈ b.r2, ∃ pairs, (Core.startOptions b).r2Buckets = some pairs
          ∧ jsLookup pairs r.binding = some r.bucket_name)
    ∧ (((Core.startOptions b).queueProducers ≠ none ↔ b.queueProducers ≠ [])
      ∧ ∀ q ∈ b.queueProducers, ∃ pairs,
          (Core.startOptions b).queueProducers = some pairs
          ∧ jsLookup pairs q.binding = some q.queue)
    ∧ (((Core.startOptions b).durableObjects ≠ none ↔ b.durableObjects ≠ [])
      ∧ ∀ d ∈ b.durableObjects, ∃ pairs,
          (Core.startOptions b).durableObjects = some pairs
          ∧ jsLookup pairs d.name = some d.class_name) := by
  refine ⟨⟨?_, ?_⟩, ⟨?_, ?_⟩, ⟨?_, ?_⟩, ⟨?_, ?_⟩, ⟨?_, ?_⟩⟩
  · simp [Core.startOptions, Core.addIfNonEmpty, List.isEmpty_iff]
  · intro d hd
    refine ⟨b.d1.map (fun d => (d.binding, d.database_id)), ?_, ?_⟩
    · simp [Core.startOptions, Core.addIfNonEmpty, List.isEmpty_iff]
      intro hemp
      rw [hemp] at hd; cases hd
    · have := jsLookup_of_nodup (b.d1.map (fun d => (d.binding, d.database_id)))
        (by simpa [List.map_map, Function.comp] using h1)
        (d.binding, d.database_id) (List.mem_map_of_mem _ hd)
      exact this
  · simp [Core.startOptions, Core.addIfNonEmpty, List.isEmpty_iff]
  · intro k hk
    refine ⟨b.kv.map (fun k => (k.binding, k.id)), ?_, ?_⟩
    · simp [Core.startOptions, Core.addIfNonEmpty, List.isEmpty_iff]
      intro hemp
      rw [hemp] at hk; cases hk
    · exact jsLookup_of_nodup _ (by simpa [List.map_map, Function.comp] using h2)
        (k.binding, k.id) (List.mem_map_of_mem _ hk)
  · simp [Core.startOptions, Core.addIfNonEmpty, List.isEmpty_iff]
  · intro r hr
    refine ⟨b.r2.map (fun r => (r.binding, r.bucket_name)), ?_, ?_⟩
    · simp [Core.startOptions, Core.addIfNonEmpty, List.isEmpty_iff]
      intro hemp
      rw [hemp] at hr; cases hr
    · exact jsLookup_of_nodup _ (by simpa [List.map_map, Function.comp] using h3)
        (r.binding, r.bucket_name) (List.mem_map_of_mem _ hr)
  · simp [Core.startOptions, Core.addIfNonEmpty, List.isEmpty_iff]
  · intro q hq
    refine ⟨b.queueProducers.map (fun q => (q.binding, q.queue)), ?_, ?_⟩
    · simp [Core.startOptions, Core.addIfNonEmpty, List.isEmpty_iff]
      intro hemp
      rw [hemp] at hq; cases hq
    · exact jsLookup_of_nodup _ (by simpa [List.map_map, Function.comp] using h4)
        (q.binding, q.queue) (List.mem_map_of_mem _ hq)
  · simp [Core.startOptions, Core.addIfNonEmpty, List.isEmpty_iff]
  · intro d hd
    refine ⟨b.durableObjects.map (fun d => (d.name, d.class_name)), ?_, ?_⟩
    · simp [Core.startOptions, Core.addIfNonEmpty, List.isEmpty_iff]
      intro hemp
      rw [hemp] at hd; cases hd
    · exact jsLookup_of_nodup _ (by simpa [List.map_map, Function.comp] using h5)
        (d.name, d.class_name) (List.mem_map_of_mem _ hd)

theorem startOptions_bindings_witness :
    ∃ pairs, (Core.startOptions ⟨[⟨"DB", "db-1"⟩], [], [], [], []⟩).d1Databases
        = some pairs ∧ jsLookup pairs "DB" = some "db-1" :=
  (startOptions_bindings ⟨[⟨"DB", "db-1"⟩], [], [], [], []⟩
      (by decide) (by decide) (by decide) (by decide) (by decide)).1.2
    ⟨"DB", "db-1"⟩ (by decide)

/-! ## Claim C3: the dummy-value dispatch table -/

/-- C3 counterexample: the claimed dispatch table is incomplete.  On the
column `x` of declared type `DATE` (not a primary key) no listed guard
fires and the name matches no date/time pattern, so the claim demands a
random words value, but the code generates a date-only string
(`type === 'DATE'` is an unlisted case; `NUMERIC`, `DECIMAL` and `TIME`
are likewise unlisted). -/
theorem generateValue_dispatch_cex : ¬ ClaimC3 := by
  intro h
  have h7 := (h ⟨"x", "DATE", 0⟩).2.2.2.2.2.2
  have hx : D1Gen.generateValueForColumn ⟨"x", "DATE", 0⟩ = .randomWords :=
    h7 (by decide) (by decide) (by decide) (by decide) (by decide)
      (by decide) (by decide)
  exact absurd hx (by decide)

/-- C3 amended: the full dispatch of `generateValueForColumn`, in the
code's guard order: an `INTEGER` primary key is skipped; a type containing
`DATETIME`/`TIMESTAMP` gives an ISO datetime; the exact types `DATE` and
`TIME` give date-only and time-only strings; a type containing `INT` gives
an integer between 1 and 1000; `REAL`/`FLOAT`/`DOUBLE` a float between 0
and 100; `BOOL` a 0/1 bit; `NUMERIC`/`DECIMAL` a float between 0 and 1000;
`BLOB` null; and any remaining type falls back on the column-name
date/time patterns, giving random words when none matches. -/
theorem generateValue_dispatch_amended (c : D1Gen.D1Column) :
    ((c.pk == 1 && toUpperS c.type == "INTEGER") = true →
      D1Gen.generateValueForColumn c = .skip)
    ∧ ((c.pk == 1 && toUpperS c.type == "INTEGER") = false →
        (hasSub "DATETIME" (toUpperS c.type).data ||
          hasSub "TIMESTAMP" (toUpperS c.type).data) = true →
        D1Gen.generateValueForColumn c = .isoDatetime)
    ∧ ((c.pk == 1 && toUpperS c.type == "INTEGER") = false →
        (hasSub "DATETIME" (toUpperS c.type).data ||
          hasSub "TIMESTAMP" (toUpperS c.type).data) = false →
        (toUpperS c.type == "DATE") = true →
        D1Gen.generateValueForColumn c = .dateOnly)
    ∧ ((c.pk == 1 && toUpperS c.type == "INTEGER") = false →
        (hasSub "DATETIME" (toUpperS c.type).data ||
          hasSub "TIMESTAMP" (toUpperS c.type).data) = false →
        (toUpperS c.type == "DATE") = false →
        (toUpperS c.type == "TIME") = true →
        D1Gen.generateValueForColumn c = .timeOnly)
    ∧ ((c.pk == 1 && toUpperS c.type == "INTEGER") = false →
        (hasSub "DATETIME" (toUpperS c.type).data ||
          hasSub "TIMESTAMP" (toUpperS c.type).data) = false →
        (toUpperS c.type == "DATE") = false →
        (toUpperS c.type == "TIME") = false →
        hasSub "INT" (toUpperS c.type).data = true →
        D1Gen.generateValueForColumn c = .intBetween 1 1000)
    ∧ ((c.pk == 1 && toUpperS c.type == "INTEGER") = false →
        (hasSub "DATETIME" (toUpperS c.type).data ||
          hasSub "TIMESTAMP" (toUpperS c.type).data) = false →
        (toUpperS c.type == "DATE") = false →
        (toUpperS c.type == "TIME") = false →
        hasSub "INT" (toUpperS c.type).data = false →
        (hasSub "REAL" (toUpperS c.type).data ||
          hasSub "FLOAT" (toUpperS c.type).data ||
          hasSub "DOUBLE" (toUpperS c.type).data) = true →
        D1Gen.generateValueForColumn c = .floatBetween 0 100)
    ∧ ((c.pk == 1 && toUpperS c.type == "INTEGER") = false →
        (hasSub "DATETIME" (toUpperS c.type).data ||
          hasSub "TIMESTAMP" (toUpperS c.type).data) = false →
        (toUpperS c.type == "DATE") = false →
        (toUpperS c.type == "TIME") = false →
        hasSub "INT" (toUpperS c.type).data = false →
        (hasSub "REAL" (toUpperS c.type).data ||
          hasSub "FLOAT" (toUpperS c.type).data ||
          hasSub "DOUBLE" (toUpperS c.type).data) = false →
        hasSub "BOOL" (toUpperS c.type).data = true →
        D1Gen.generateValueForColumn c = .boolBit)
    ∧ ((c.pk == 1 && toUpperS c.type == "INTEGER") = false →
        (hasSub "DATETIME" (toUpperS c.type).data ||
          hasSub "TIMESTAMP" (toUpperS c.type).data) = false →
        (toUpperS c.type == "DATE") = false →
        (toUpperS c.type == "TIME") = false →
        hasSub "INT" (toUpperS c.type).data = false →
        (hasSub "REAL" (toUpperS c.type).data ||
          hasSub "FLOAT" (toUpperS c.type).data ||
          hasSub "DOUBLE" (toUpperS c.type).data) = false →
        hasSub "BOOL" (toUpperS c.type).data = false →
        (hasSub "NUMERIC" (toUpperS c.type).data ||
          hasSub "DECIMAL" (toUpperS c.type).data) = true →
        D1Gen.generateValueForColumn c = .floatBetween 0 1000)
    ∧ ((c.pk == 1 && toUpperS c.type == "INTEGER") = false →
        (hasSub "DATETIME" (toUpperS c.type).data ||
          hasSub "TIMESTAMP" (toUpperS c.type).data) = false →
        (toUpperS c.type == "DATE") = false →
        (toUpperS c.type == "TIME") = false →
        hasSub "INT" (toUpperS c.type).data = false →
        (hasSub "REAL" (toUpperS c.type).data ||
          hasSub "FLOAT" (toUpperS c.type).data ||
          hasSub "DOUBLE" (toUpperS c.type).data) = false →
        hasSub "BOOL" (toUpperS c.type).data = false →
        (hasSub "NUMERIC" (toUpperS c.type).data ||
          hasSub "DECIMAL" (toUpperS c.type).data) = false →
        hasSub "BLOB" (toUpperS c.type).data = true →
        D1Gen.generateValueForColumn c = .nullValue)
    ∧ ((c.pk == 1 && toUpperS c.type == "INTEGER") = false →
        (hasSub "DATETIME" (toUpperS c.type).data ||
          hasSub "TIMESTAMP" (toUpperS c.type).data) = false →
        (toUpperS c.type == "DATE") = false →
        (toUpperS c.type == "TIME") = false →
        hasSub "INT" (toUpperS c.type).data = false →
        (hasSub "REAL" (toUpperS c.type).data ||
          hasSub "FLOAT" (toUpperS c.type).data ||
          hasSub "DOUBLE" (toUpperS c.type).data) = false →
        hasSub "BOOL" (toUpperS c.type).data = false →
        (hasSub "NUMERIC" (toUpperS c.type).data ||
          hasSub "DECIMAL" (toUpperS c.type).data) = false →
        hasSub "BLOB" (toUpperS c.type).data = false →
        D1Gen.generateValueForColumn c =
          (match D1Gen.matchesDateTimePattern c.name with
            | some .dt => .isoDatetime
            | some .d => .dateOnly
            | some .t => .timeOnly
            | none => .randomWords)) := by
  refine ⟨?_, ?_, ?_, ?_, ?_, ?_, ?_, ?_, ?_, ?_⟩ <;>
    intros <;>
      simp_all [D1Gen.generateValueForColumn]

theorem generateValue_dispatch_witness :
    D1Gen.generateValueForColumn ⟨"ok", "BOOLEAN", 0⟩ = .boolBit :=
  (generateValue_dispatch_amended ⟨"ok", "BOOLEAN", 0⟩).2.2.2.2.2.2.1
    (by decide) (by decide) (by decide) (by decide) (by decide) (by decide)
    (by decide)

/-! ## Claim C10: foreign-key precedence in `generateDummyRow` -/

theorem applyColumn_other {α : Type} (fkv : String → List α)
    (choice : String → Nat) (row : String → Option (D1Gen.RowVal α))
    (col : D1Gen.D1Column) (k : String) (hk : k ≠ col.name) :
    D1Gen.applyColumn fkv choice row col k = row k := by
  unfold D1Gen.applyColumn
  have hcond : (k == col.name) = false := by simp [hk]
  by_cases h : 0 < (fkv col.name).length
  · rw [dif_pos h]
    simp [hcond]
  · rw [dif_neg h]
    cases hg : D1Gen.generateValueForColumn col <;> simp [hg, hcond]

theorem dummyRow_foldl_untouched {α : Type} (fkv : String → List α)
    (choice : String → Nat) :
    ∀ (cols : List D1Gen.D1Column) (row : String → Option (D1Gen.RowVal α))
      (k : String), (∀ c ∈ cols, c.name ≠ k) →
      cols.foldl (D1Gen.applyColumn fkv choice) row k = row k := by
  intro cols
  induction cols with
  | nil => intro row k _; rfl
  | cons c cs ih =>
    intro row k h
    simp only [List.foldl_cons]
    rw [ih _ k (fun c' hc' => h c' (List.mem_cons_of_mem _ hc'))]
    exact applyColumn_other fkv choice row c k
      (fun he => h c (List.mem_cons_self _ _) he.symm)

/-- C10: when the `foreignKeyValues` map supplies a non-empty list for a
column (of a schema with distinct column names), the generated row assigns
that column a member of the list, tagged as a foreign-key pick — so the
type dispatch, including the skip of INTEGER primary keys, is never
consulted for it. -/
theorem dummyRow_fk_precedence {α : Type} (schema : D1Gen.D1TableSchema)
    (fkv : String → List α) (choice : String → Nat)
    (col : D1Gen.D1Column) (hmem : col ∈ schema.columns)
    (hnd : (schema.columns.map (fun c => c.name)).Nodup)
    (hfk : fkv col.name ≠ []) :
    ∃ v, D1Gen.generateDummyRow schema fkv choice col.name
        = some (.fk v) ∧ v ∈ fkv col.name := by
  unfold D1Gen.generateDummyRow
  revert hnd hmem
  generalize hrow : (fun _ => none : String → Option (D1Gen.RowVal α)) = row
  clear hrow
  induction schema.columns generalizing row with
  | nil => intro hmem _; cases hmem
  | cons c cs ih =>
    intro hmem hnd
    simp only [List.map_cons] at hnd
    rcases List.mem_cons.mp hmem with heq | hmem'
    · have hnames : ∀ c' ∈ cs, c'.name ≠ col.name := by
        intro c' hc' he
        have hmm : c'.name ∈ cs.map (fun x => x.name) :=
          List.mem_map_of_mem _ hc'
        rw [he, heq] at hmm
        exact (List.nodup_cons.mp hnd).1 hmm
      simp only [List.foldl_cons]
      rw [dummyRow_foldl_untouched fkv choice cs _ col.name hnames, ← heq]
      unfold D1Gen.applyColumn
      have hlen : 0 < (fkv col.name).length := by
        cases hfkv : fkv col.name with
        | nil => exact absurd hfkv hfk
        | cons x xs => simp [hfkv]
      rw [dif_pos hlen]
      refine ⟨(fkv col.name).get ⟨choice col.name % (fkv col.name).length,
        Nat.mod_lt _ hlen⟩, ?_, List.get_mem _ _ _⟩
      simp
    · simp only [List.foldl_cons]
      exact ih _ hmem' (List.nodup_cons.mp hnd).2

theorem dummyRow_fk_precedence_witness :
    ∃ v, D1Gen.generateDummyRow ⟨"posts", [⟨"user_id", "INTEGER", 1⟩]⟩
        (fun k => if k == "user_id" then [(7 : Int), 9] else []) (fun _ => 3)
        "user_id" = some (.fk v)
      ∧ v ∈ (if ("user_id" == "user_id") then [(7 : Int), 9] else []) := by
  have h := dummyRow_fk_precedence (α := Int)
    ⟨"posts", [⟨"user_id", "INTEGER", 1⟩]⟩
    (fun k => if k == "user_id" then [(7 : Int), 9] else []) (fun _ => 3)
    ⟨"user_id", "INTEGER", 1⟩ (by decide) (by decide) (by decide)
  simpa using h

/-! ## Claim C8: the two `buildFileTree` copies agree -/

theorem findNode_copy_eq : DemoTree.findNode = FileTree.findNode := rfl

theorem setChildren_copy_eq (L : List TreeNode) (nm : String)
    (ch : List TreeNode) :
    DemoTree.setChildrenOfFirst L nm ch = FileTree.setChildrenOfFirst L nm ch := by
  induction L with
  | nil => rfl
  | cons n ns ih =>
    cases n with
    | mk nm' p t sz ch₀ =>
      by_cases h : (nm' == nm) = true
      · simp only [DemoTree.setChildrenOfFirst, FileTree.setChildrenOfFirst,
          if_pos h]
      · simp only [DemoTree.setChildrenOfFirst, FileTree.setChildrenOfFirst,
          if_neg h, List.cons.injEq, true_and]
        exact ih

theorem ins_copy_eq :
    ∀ (rest pre : List String) (sz : Int) (level : List TreeNode),
      DemoTree.ins sz pre rest level = FileTree.ins sz pre rest level := by
  intro rest
  induction rest with
  | nil => intro pre sz level; rfl
  | cons p rs ih =>
    intro pre sz level
    by_cases hp : p = ""
    · simp only [DemoTree.ins, FileTree.ins, if_pos hp]
      exact ih _ _ _
    · simp only [DemoTree.ins, FileTree.ins, if_neg hp, findNode_copy_eq]
      cases hf : FileTree.findNode level p with
      | none =>
        by_cases hl : rs.isEmpty
        · simp [hl]
        · simp [hl, ih]
      | some n =>
        by_cases hl : rs.isEmpty
        · simp [hl]
        · cases hch : n.children with
          | none => simp [hl, hch, ih]
          | some ch => simp [hl, hch, ih, setChildren_copy_eq]

theorem keepIns_copy_eq :
    ∀ (rest pre : List String) (level : List TreeNode),
      DemoTree.keepIns pre rest level = FileTree.keepIns pre rest level := by
  intro rest
  induction rest with
  | nil => intro pre level; rfl
  | cons p rs ih =>
    intro pre level
    by_cases hp : p = ""
    · simp only [DemoTree.keepIns, FileTree.keepIns, if_pos hp]
      exact ih _ _
    · simp only [DemoTree.keepIns, FileTree.keepIns, if_neg hp,
        findNode_copy_eq]
      cases hf : FileTree.findNode level p with
      | none => simp [ih]
      | some n =>
        cases hch : n.children with
        | none => simp [hch, ih]
        | some ch => simp [hch, ih, setChildren_copy_eq]

theorem insertionSort_congr_rel {α : Type} (r s : α → α → Prop)
    (ir : DecidableRel r) (is' : DecidableRel s) (hrs : r = s) (l : List α) :
    @List.insertionSort α r ir l = @List.insertionSort α s is' l := by
  subst hrs
  congr 1

theorem nodeR_copy_eq : DemoTree.nodeR = FileTree.nodeR := rfl

mutual
theorem sortEach_copy_eq : ∀ L, DemoTree.sortEach L = FileTree.sortEach L
  | [] => rfl
  | n :: ns => by
    simp only [DemoTree.sortEach, FileTree.sortEach]
    rw [sortOne_copy_eq n, sortEach_copy_eq ns]

theorem sortOne_copy_eq : ∀ n, DemoTree.sortOne n = FileTree.sortOne n
  | ⟨nm, p, t, sz, none⟩ => rfl
  | ⟨nm, p, t, sz, some ch⟩ => by
    simp only [DemoTree.sortOne, FileTree.sortOne]
    rw [sortEach_copy_eq ch]
    rw [insertionSort_congr_rel DemoTree.nodeR FileTree.nodeR _ _
      nodeR_copy_eq]
end

theorem sortNodes_copy_eq (L : List TreeNode) :
    DemoTree.sortNodes L = FileTree.sortNodes L := by
  unfold DemoTree.sortNodes FileTree.sortNodes
  rw [sortEach_copy_eq L]
  exact insertionSort_congr_rel DemoTree.nodeR FileTree.nodeR _ _
    nodeR_copy_eq _

/-- C8: the dashboard `buildFileTree` and the demo-app `buildFileTree`
compute the same tree on every object list and `hideKeepFiles` flag. -/
theorem buildFileTree_copies_agree (objects : List R2ObjectItem)
    (flag : Bool) :
    DemoTree.buildFileTree objects flag = FileTree.buildFileTree objects flag := by
  unfold DemoTree.buildFileTree FileTree.buildFileTree
  have h₁ : (fun (L : List TreeNode) (o : R2ObjectItem) =>
      DemoTree.ins o.size [] (splitSlash o.key) L)
      = fun L o => FileTree.ins o.size [] (splitSlash o.key) L := by
    funext L o
    exact ins_copy_eq _ _ _ _
  have h₂ : (fun (L : List TreeNode) (o : R2ObjectItem) =>
      if endsWithS o.key "/.keep" then
        DemoTree.keepIns [] (splitSlash (replaceFirstS o.key "/.keep" "")) L
      else L)
      = fun L o =>
        if endsWithS o.key "/.keep" then
          FileTree.keepIns [] (splitSlash (replaceFirstS o.key "/.keep" "")) L
        else L := by
    funext L o
    by_cases h : endsWithS o.key "/.keep" <;> simp [h, keepIns_copy_eq]
  rw [h₁, h₂, sortNodes_copy_eq]

/-! ## Claim C2: ordering of sibling lists -/

theorem lexLe_total : ∀ x y, lexLe x y = true ∨ lexLe y x = true := by
  intro x
  induction x with
  | nil => intro y; left; rfl
  | cons a as ih =>
    intro y
    cases y with
    | nil => right; rfl
    | cons b bs =>
      rcases lt_trichotomy a b with h | h | h
      · left; simp [lexLe, h]
      · subst h
        rcases ih bs with h' | h'
        · left; simp [lexLe, h']
        · right; simp [lexLe, h']
      · right; simp [lexLe, h]

theorem lexLe_trans :
    ∀ x y z, lexLe x y = true → lexLe y z = true → lexLe x z = true := by
  intro x
  induction x with
  | nil => intro y z _ _; rfl
  | cons a as ih =>
    intro y z h₁ h₂
    cases y with
    | nil => simp [lexLe] at h₁
    | cons b bs =>
      cases z with
      | nil => simp [lexLe] at h₂
      | cons c cs =>
        simp only [lexLe, Bool.or_eq_true, Bool.and_eq_true, beq_iff_eq,
          decide_eq_true_eq] at h₁ h₂ ⊢
        rcases h₁ with h₁ | ⟨rfl, h₁'⟩
        · rcases h₂ with h₂ | ⟨rfl, h₂'⟩
          · exact Or.inl (lt_trans h₁ h₂)
          · exact Or.inl h₁
        · rcases h₂ with h₂ | ⟨rfl, h₂'⟩
          · exact Or.inl h₂
          · exact Or.inr ⟨rfl, ih bs cs h₁' h₂'⟩

instance : IsTotal TreeNode FileTree.nodeR := ⟨by
  intro a b
  rcases a with ⟨na, pa, ta, sza, cha⟩
  rcases b with ⟨nb, pb, tb, szb, chb⟩
  cases ta <;> cases tb <;>
      simp [FileTree.nodeR, FileTree.nodeLe, TreeNode.ntype, TreeNode.name,
        strLe, beq_iff_eq] <;>
    exact lexLe_total _ _⟩

instance : IsTrans TreeNode FileTree.nodeR := ⟨by
  intro a b c h₁ h₂
  rcases a with ⟨na, pa, ta, sza, cha⟩
  rcases b with ⟨nb, pb, tb, szb, chb⟩
  rcases c with ⟨nc, pc, tc, szc, chc⟩
  cases ta <;> cases tb <;> cases tc <;>
      simp_all [FileTree.nodeR, FileTree.nodeLe, TreeNode.ntype,
        TreeNode.name, strLe, beq_iff_eq] <;>
    exact lexLe_trans _ _ _ h₁ h₂⟩

theorem mem_sortEach :
    ∀ (L : List TreeNode) (n : TreeNode), n ∈ FileTree.sortEach L →
      ∃ m ∈ L, n = FileTree.sortOne m := by
  intro L
  induction L with
  | nil => intro n h; simp [FileTree.sortEach] at h
  | cons x xs ih =>
    intro n h
    simp only [FileTree.sortEach] at h
    rcases List.mem_cons.mp h with rfl | h'
    · exact ⟨x, List.mem_cons_self _ _, rfl⟩
    · rcases ih n h' with ⟨m, hm, he⟩
      exact ⟨m, List.mem_cons_of_mem _ hm, he⟩

theorem sortedLevels_of :
    ∀ (L : List TreeNode), List.Sorted FileTree.nodeR L →
      (∀ n ∈ L, sortedInner n = true) → sortedLevels L = true := by
  intro L
  induction L with
  | nil => intro _ _; rfl
  | cons a tail ih =>
    intro hs hin
    cases tail with
    | nil =>
      simpa [sortedLevels] using hin a (List.mem_cons_self _ _)
    | cons b rest =>
      have hparts := List.sorted_cons.mp hs
      have hab : FileTree.nodeLe a b = true :=
        hparts.1 b (List.mem_cons_self _ _)
      simp only [sortedLevels, Bool.and_eq_true]
      exact ⟨⟨hab, hin a (List.mem_cons_self _ _)⟩,
        ih hparts.2 (fun n hn => hin n (List.mem_cons_of_mem _ hn))⟩

theorem sortNodes_levels_sorted_aux :
    ∀ (N : ℕ) (L : List TreeNode), sizeOf L ≤ N →
      sortedLevels (FileTree.sortNodes L) = true := by
  intro N
  induction N using Nat.strong_induction_on with
  | _ N ih =>
    intro L hL
    unfold FileTree.sortNodes
    apply sortedLevels_of
    · exact List.sorted_insertionSort FileTree.nodeR _
    · intro n hn
      have hn' : n ∈ FileTree.sortEach L :=
        (List.mem_insertionSort FileTree.nodeR).mp hn
      rcases mem_sortEach L n hn' with ⟨m, hm, rfl⟩
      rcases m with ⟨nm, p, t, sz, chOpt⟩
      cases chOpt with
      | none => rfl
      | some ch =>
        have hmem := List.sizeOf_lt_of_mem hm
        have hsz : sizeOf ch < N := by
          simp only [TreeNode.mk.sizeOf_spec, Option.some.sizeOf_spec] at hmem
          omega
        have := ih (sizeOf ch) hsz ch le_rfl
        unfold FileTree.sortNodes at this
        simpa [FileTree.sortOne, sortedInner] using this

theorem sortNodes_levels_sorted (L : List TreeNode) :
    sortedLevels (FileTree.sortNodes L) = true :=
  sortNodes_levels_sorted_aux (sizeOf L) L le_rfl

/-- C2 counterexample: the sibling lists of `buildFileTree` are not in
alphabetic order by node name: on the objects `a` (a file) and `b/c`, the
root level is `[folder b, file a]`, because the comparator puts folders
before files regardless of name. -/
theorem sortNodes_alpha_cex :
    alphaLevels (FileTree.buildFileTree [⟨"a", 1⟩, ⟨"b/c", 1⟩] true) = false
    ∧ (FileTree.buildFileTree [⟨"a", 1⟩, ⟨"b/c", 1⟩] true).map TreeNode.name
        = ["b", "a"] := by
  constructor <;> decide

/-- C2 amended: in the tree returned by `buildFileTree`, every sibling list
at every level is sorted by the source comparator: folder nodes precede
file nodes, and within each of the two groups siblings are in alphabetic
order by node name. -/
theorem sortNodes_sorted_amended (objects : List R2ObjectItem)
    (flag : Bool) :
    sortedLevels (FileTree.buildFileTree objects flag) = true := by
  simp only [FileTree.buildFileTree]
  exact sortNodes_levels_sorted _

/-! ## Claim C9: `.keep` handling -/

theorem hasNodeNamed_iff :
    ∀ (L : List TreeNode) (nm : String),
      hasNodeNamed L nm = true ↔ ∃ n ∈ L, nodeHasName n nm = true := by
  intro L nm
  induction L with
  | nil => simp [hasNodeNamed]
  | cons n ns ih =>
    simp [hasNodeNamed, ih]

theorem hasNodeNamed_append (L L' : List TreeNode) (nm : String) :
    hasNodeNamed (L ++ L') nm = (hasNodeNamed L nm || hasNodeNamed L' nm) := by
  induction L with
  | nil => simp [hasNodeNamed]
  | cons n ns ih => simp [hasNodeNamed, ih, Bool.or_assoc]

theorem hasNodeNamed_setChildren
    (L : List TreeNode) (p nm : String) (ch' : List TreeNode)
    (h : hasNodeNamed (FileTree.setChildrenOfFirst L p ch') nm = true) :
    hasNodeNamed L nm = true ∨ hasNodeNamed ch' nm = true := by
  induction L with
  | nil => simp [FileTree.setChildrenOfFirst, hasNodeNamed] at h
  | cons n ns ih =>
    rcases n with ⟨nm', pth, t, sz, ch₀⟩
    by_cases hn : (nm' == p) = true
    · simp only [FileTree.setChildrenOfFirst, if_pos hn, hasNodeNamed,
        Bool.or_eq_true] at h
      rcases h with h | h
      · simp only [nodeHasName, Bool.or_eq_true] at h
        rcases h with h | h
        · left
          cases ch₀ <;> simp [hasNodeNamed, nodeHasName, h]
        · right; exact h
      · left; simp [hasNodeNamed, h]
    · simp only [FileTree.setChildrenOfFirst, if_neg hn, hasNodeNamed,
        Bool.or_eq_true] at h
      rcases h with h | h
      · left; simp [hasNodeNamed, h]
      · rcases ih h with h' | h'
        · left; simp [hasNodeNamed, h']
        · right; exact h'

theorem hasNodeNamed_single_file (p pth : String) (sz : Option Int)
    (nm : String) :
    hasNodeNamed [⟨p, pth, .file, sz, none⟩] nm = (p == nm) := by
  simp [hasNodeNamed, nodeHasName]

theorem hasNodeNamed_single_folder (p pth : String) (sz : Option Int)
    (ch : List TreeNode) (nm : String) :
    hasNodeNamed [⟨p, pth, .folder, sz, some ch⟩] nm
      = ((p == nm) || hasNodeNamed ch nm) := by
  simp [hasNodeNamed, nodeHasName]

theorem hasNodeNamed_of_found (level : List TreeNode) (p nm : String)
    (n : TreeNode) (ch : List TreeNode)
    (hf : FileTree.findNode level p = some n) (hch : n.children = some ch)
    (h : hasNodeNamed ch nm = true) : hasNodeNamed level nm = true := by
  apply (hasNodeNamed_iff _ _).mpr
  refine ⟨n, List.mem_of_find?_eq_some hf, ?_⟩
  rcases n with ⟨n₁, n₂, n₃, n₄, nch⟩
  simp only [TreeNode.children] at hch
  subst hch
  simp only [nodeHasName, Bool.or_eq_true]
  exact Or.inr h

theorem ins_names :
    ∀ (rest pre : List String) (sz : Int) (level : List TreeNode)
      (nm : String),
      hasNodeNamed (FileTree.ins sz pre rest level) nm = true →
      hasNodeNamed level nm = true ∨ nm ∈ rest := by
  intro rest
  induction rest with
  | nil => intro pre sz level nm h; exact Or.inl h
  | cons p rs ih =>
    intro pre sz level nm h
    by_cases hp : p = ""
    · simp only [FileTree.ins, if_pos hp] at h
      rcases ih _ _ _ _ h with h' | h'
      · exact Or.inl h'
      · exact Or.inr (List.mem_cons_of_mem _ h')
    · simp only [FileTree.ins, if_neg hp] at h
      cases hf : FileTree.findNode level p with
      | none =>
        simp only [hf] at h
        cases rs with
        | nil =>
          simp only [List.isEmpty_nil, if_true, hasNodeNamed_append,
            hasNodeNamed_single_file, Bool.or_eq_true] at h
          rcases h with h | h
          · exact Or.inl h
          · right
            rw [beq_iff_eq] at h
            rw [h]
            exact List.mem_cons_self _ _
        | cons r rs' =>
          simp only [List.isEmpty_cons, Bool.false_eq_true, if_false,
            hasNodeNamed_append, hasNodeNamed_single_folder,
            Bool.or_eq_true] at h
          rcases h with h | h | h
          · exact Or.inl h
          · right
            rw [beq_iff_eq] at h
            rw [h]
            exact List.mem_cons_self _ _
          · rcases ih _ _ _ _ h with h' | h'
            · simp [hasNodeNamed] at h'
            · exact Or.inr (List.mem_cons_of_mem _ h')
      | some n =>
        simp only [hf] at h
        cases rs with
        | nil =>
          simp only [List.isEmpty_nil, if_true] at h
          exact Or.inl h
        | cons r rs' =>
          simp only [List.isEmpty_cons, Bool.false_eq_true, if_false] at h
          cases hch : n.children with
          | some ch =>
            simp only [hch] at h
            rcases hasNodeNamed_setChildren _ _ _ _ h with h' | h'
            · exact Or.inl h'
            · rcases ih _ _ _ _ h' with h'' | h''
              · exact Or.inl (hasNodeNamed_of_found level p nm n ch hf hch h'')
              · exact Or.inr (List.mem_cons_of_mem _ h'')
          | none =>
            simp only [hch] at h
            rcases ih _ _ _ _ h with h' | h'
            · exact Or.inl h'
            · exact Or.inr (List.mem_cons_of_mem _ h')

theorem keepIns_names :
    ∀ (rest pre : List String) (level : List TreeNode) (nm : String),
      hasNodeNamed (FileTree.keepIns pre rest level) nm = true →
      hasNodeNamed level nm = true ∨ nm ∈ rest := by
  intro rest
  induction rest with
  | nil => intro pre level nm h; exact Or.inl h
  | cons p rs ih =>
    intro pre level nm h
    by_cases hp : p = ""
    · simp only [FileTree.keepIns, if_pos hp] at h
      rcases ih _ _ _ h with h' | h'
      · exact Or.inl h'
      · exact Or.inr (List.mem_cons_of_mem _ h')
    · simp only [FileTree.keepIns, if_neg hp] at h
      cases hf : FileTree.findNode level p with
      | none =>
        simp only [hf] at h
        simp only [hasNodeNamed_append, hasNodeNamed_single_folder,
          Bool.or_eq_true] at h
        rcases h with h | h | h
        · exact Or.inl h
        · right
          rw [beq_iff_eq] at h
          rw [h]
          exact List.mem_cons_self _ _
        · rcases ih _ _ _ h with h' | h'
          · simp [hasNodeNamed] at h'
          · exact Or.inr (List.mem_cons_of_mem _ h')
      | some n =>
        simp only [hf] at h
        cases hch : n.children with
        | some ch =>
          simp only [hch] at h
          rcases hasNodeNamed_setChildren _ _ _ _ h with h' | h'
          · exact Or.inl h'
          · rcases ih _ _ _ h' with h'' | h''
            · exact Or.inl (hasNodeNamed_of_found level p nm n ch hf hch h'')
            · exact Or.inr (List.mem_cons_of_mem _ h'')
        | none =>
          simp only [hch] at h
          rcases ih _ _ _ h with h' | h'
          · exact Or.inl h'
          · exact Or.inr (List.mem_cons_of_mem _ h')

theorem sortNodes_names_aux :
    ∀ (N : ℕ) (L : List TreeNode), sizeOf L ≤ N → ∀ nm,
      hasNodeNamed (FileTree.sortNodes L) nm = true →
      hasNodeNamed L nm = true := by
  intro N
  induction N using Nat.strong_induction_on with
  | _ N ih =>
    intro L hL nm h
    unfold FileTree.sortNodes at h
    rcases (hasNodeNamed_iff _ _).mp h with ⟨n, hn, hnn⟩
    have hn' : n ∈ FileTree.sortEach L :=
      (List.mem_insertionSort FileTree.nodeR).mp hn
    rcases mem_sortEach L n hn' with ⟨m, hm, rfl⟩
    apply (hasNodeNamed_iff _ _).mpr
    refine ⟨m, hm, ?_⟩
    rcases m with ⟨nm', p, t, sz, chOpt⟩
    cases chOpt with
    | none => simpa [FileTree.sortOne, nodeHasName] using hnn
    | some ch =>
      simp only [FileTree.sortOne, nodeHasName, Bool.or_eq_true] at hnn ⊢
      rcases hnn with hnn | hnn
      · exact Or.inl hnn
      · right
        have hmem := List.sizeOf_lt_of_mem hm
        have hsz : sizeOf ch < N := by
          simp only [TreeNode.mk.sizeOf_spec, Option.some.sizeOf_spec] at hmem
          omega
        apply ih (sizeOf ch) hsz ch le_rfl nm
        unfold FileTree.sortNodes
        exact hnn

theorem phase1_no_keep :
    ∀ (l : List R2ObjectItem) (root : List TreeNode),
      hasNodeNamed root ".keep" = false →
      (∀ o ∈ l, ".keep" ∉ splitSlash o.key) →
      hasNodeNamed
        (l.foldl (fun L o => FileTree.ins o.size [] (splitSlash o.key) L) root)
        ".keep" = false := by
  intro l
  induction l with
  | nil => intro root h _; exact h
  | cons o os ih =>
    intro root h hall
    simp only [List.foldl_cons]
    apply ih
    · rcases hstep : hasNodeNamed
          (FileTree.ins o.size [] (splitSlash o.key) root) ".keep" with _ | _
      · rfl
      · exfalso
        rcases ins_names _ _ _ _ _ hstep with h' | h'
        · rw [h'] at h; cases h
        · exact hall o (List.mem_cons_self _ _) h'
    · exact fun o' ho' => hall o' (List.mem_cons_of_mem _ ho')

theorem phase2_no_keep :
    ∀ (l : List R2ObjectItem) (root : List TreeNode),
      hasNodeNamed root ".keep" = false →
      (∀ o ∈ l, endsWithS o.key "/.keep" = true →
        ".keep" ∉ splitSlash (replaceFirstS o.key "/.keep" "")) →
      hasNodeNamed
        (l.foldl
          (fun L o =>
            if endsWithS o.key "/.keep" then
              FileTree.keepIns [] (splitSlash (replaceFirstS o.key "/.keep" "")) L
            else L)
          root) ".keep" = false := by
  intro l
  induction l with
  | nil => intro root h _; exact h
  | cons o os ih =>
    intro root h hall
    simp only [List.foldl_cons]
    apply ih
    · by_cases hends : endsWithS o.key "/.keep" = true
      · simp only [hends, if_true]
        rcases hstep : hasNodeNamed
            (FileTree.keepIns []
              (splitSlash (replaceFirstS o.key "/.keep" "")) root)
            ".keep" with _ | _
        · rfl
        · exfalso
          rcases keepIns_names _ _ _ _ hstep with h' | h'
          · rw [h'] at h; cases h
          · exact hall o (List.mem_cons_self _ _) hends h'
      · simp only [Bool.not_eq_true] at hends
        simp only [hends, Bool.false_eq_true, if_false]
        exact h
    · exact fun o' ho' => hall o' (List.mem_cons_of_mem _ ho')

theorem sortNodes_keepIns_nil :
    ∀ (rest pre : List String),
      FileTree.sortNodes (FileTree.keepIns pre rest []) =
        FileTree.keepIns pre rest [] := by
  intro rest
  induction rest with
  | nil => intro pre; rfl
  | cons p rs ih =>
    intro pre
    by_cases hp : p = ""
    · simp only [FileTree.keepIns, if_pos hp]
      exact ih _
    · simp only [FileTree.keepIns, if_neg hp]
      have hf : FileTree.findNode [] p = none := rfl
      simp only [hf, List.nil_append]
      show List.insertionSort FileTree.nodeR
          (FileTree.sortEach [⟨p, joinSlash (pre ++ [p]), .folder, none,
            some (FileTree.keepIns (pre ++ [p]) rs [])⟩]) = _
      simp only [FileTree.sortEach, FileTree.sortOne]
      have hch := ih (pre ++ [p])
      unfold FileTree.sortNodes at hch
      rw [hch]
      simp [List.insertionSort, List.orderedInsert]

theorem allFolders_keepIns_nil :
    ∀ (rest pre : List String),
      allFolders (FileTree.keepIns pre rest []) = true := by
  intro rest
  induction rest with
  | nil => intro pre; rfl
  | cons p rs ih =>
    intro pre
    by_cases hp : p = ""
    · simp only [FileTree.keepIns, if_pos hp]
      exact ih _
    · simp only [FileTree.keepIns, if_neg hp]
      have hf : FileTree.findNode [] p = none := rfl
      simp only [hf, List.nil_append]
      simp [allFolders, folderNode, ih (pre ++ [p])]

theorem filterKeep_phase1 (l : List R2ObjectItem) :
    (l.filter (fun o => o.key != ".keep")).filter
        (fun o => !(endsWithS o.key "/.keep") && o.key != ".keep")
      = l.filter (fun o => !(endsWithS o.key "/.keep") && o.key != ".keep") := by
  induction l with
  | nil => rfl
  | cons o os ih =>
    by_cases hk : o.key = ".keep"
    · have h1 : (o.key != ".keep") = false := by simp [hk]
      simp only [List.filter_cons, h1, Bool.and_false, Bool.false_eq_true,
        if_false]
      exact ih
    · have h1 : (o.key != ".keep") = true := by simp [hk]
      by_cases he : endsWithS o.key "/.keep" = true
      · simp only [List.filter_cons, h1, he, Bool.not_true, Bool.false_and,
          Bool.false_eq_true, if_false, if_true]
        exact ih
      · simp only [Bool.not_eq_true] at he
        simp only [List.filter_cons, h1, he, Bool.not_false, Bool.true_and,
          if_true]
        rw [ih]

theorem phase2_filterKeep :
    ∀ (l : List R2ObjectItem) (root : List TreeNode),
      l.foldl
          (fun L o =>
            if endsWithS o.key "/.keep" then
              FileTree.keepIns [] (splitSlash (replaceFirstS o.key "/.keep" "")) L
            else L)
          root
        = (l.filter (fun o => o.key != ".keep")).foldl
            (fun L o =>
              if endsWithS o.key "/.keep" then
                FileTree.keepIns [] (splitSlash (replaceFirstS o.key "/.keep" "")) L
              else L)
            root := by
  intro l
  induction l with
  | nil => intro root; rfl
  | cons o os ih =>
    intro root
    by_cases hk : o.key = ".keep"
    · have h1 : (o.key != ".keep") = false := by simp [hk]
      have h2 : endsWithS o.key "/.keep" = false := by rw [hk]; rfl
      simp only [List.filter_cons, h1, Bool.false_eq_true, if_false,
        List.foldl_cons, h2]
      exact ih root
    · have h1 : (o.key != ".keep") = true := by simp [hk]
      simp only [List.filter_cons, h1, if_true, List.foldl_cons]
      exact ih _

theorem sortNodes_no_keep (L : List TreeNode)
    (hL : hasNodeNamed L ".keep" = false) :
    hasNodeNamed (FileTree.sortNodes L) ".keep" = false := by
  rcases hfin : hasNodeNamed (FileTree.sortNodes L) ".keep" with _ | _
  · rfl
  · exfalso
    have := sortNodes_names_aux (sizeOf L) L le_rfl ".keep" hfin
    rw [this] at hL
    cases hL

/-- C9 counterexample: with `hideKeepFiles` left at its default, a node
named `.keep` can appear in the tree: the object `".keep/a"` neither ends
in `/.keep` nor equals `.keep`, so it is inserted whole and produces a
folder node named `.keep` at the root. -/
theorem keep_files_cex :
    hasNodeNamed (FileTree.buildFileTree [⟨".keep/a", 1⟩] true) ".keep" = true
    ∧ endsWithS ".keep/a" "/.keep" = false
    ∧ (".keep/a" : String) ≠ ".keep" := by
  refine ⟨?_, ?_, ?_⟩ <;> decide

/-- C9 amended: with `hideKeepFiles` true, provided `.keep` occurs in keys
only as the suffix marker (`keepOk`), no node named `.keep` appears in the
tree; an object whose key is exactly `.keep` never contributes anything;
and an object whose key ends in `/.keep` contributes, alone, exactly the
folder chain of the segments of its key with the first `/.keep` occurrence
removed — only folder nodes. -/
theorem keep_files_amended :
    (∀ objects : List R2ObjectItem, (∀ o ∈ objects, keepOk o.key = true) →
      hasNodeNamed (FileTree.buildFileTree objects true) ".keep" = false)
    ∧ (∀ objects : List R2ObjectItem,
        FileTree.buildFileTree objects true =
          FileTree.buildFileTree
            (objects.filter (fun o => o.key != ".keep")) true)
    ∧ (∀ (key : String) (sz : Int), endsWithS key "/.keep" = true →
        keepOk key = true →
        FileTree.buildFileTree [⟨key, sz⟩] true =
            FileTree.keepIns [] (splitSlash (replaceFirstS key "/.keep" "")) []
          ∧ allFolders (FileTree.buildFileTree [⟨key, sz⟩] true) = true) := by
  refine ⟨?_, ?_, ?_⟩
  · intro objects hok
    simp only [FileTree.buildFileTree, if_true]
    have h1 : hasNodeNamed
        ((objects.filter
          (fun o => !(endsWithS o.key "/.keep") && o.key != ".keep")).foldl
          (fun L o => FileTree.ins o.size [] (splitSlash o.key) L) [])
        ".keep" = false := by
      apply phase1_no_keep _ _ (by simp [hasNodeNamed])
      intro o ho
      have hmem := List.mem_filter.mp ho
      have hpred := hmem.2
      simp only [Bool.and_eq_true, Bool.not_eq_true'] at hpred
      have hko := hok o hmem.1
      rw [keepOk] at hko
      rw [if_neg (by simp [hpred.1])] at hko
      simp only [Bool.or_eq_true, beq_iff_eq, decide_eq_true_eq] at hko
      rcases hko with hko | hko
      · exact absurd hko (by simpa using hpred.2)
      · exact hko
    have h2 : hasNodeNamed
        (objects.foldl
          (fun L o =>
            if endsWithS o.key "/.keep" then
              FileTree.keepIns [] (splitSlash (replaceFirstS o.key "/.keep" "")) L
            else L)
          ((objects.filter
            (fun o => !(endsWithS o.key "/.keep") && o.key != ".keep")).foldl
            (fun L o => FileTree.ins o.size [] (splitSlash o.key) L) []))
        ".keep" = false := by
      apply phase2_no_keep _ _ h1
      intro o ho hends
      have hko := hok o ho
      rw [keepOk, if_pos hends] at hko
      simp only [Bool.and_eq_true, beq_iff_eq, decide_eq_true_eq] at hko
      rw [hko.1]
      exact hko.2
    exact sortNodes_no_keep _ h2
  · intro objects
    simp only [FileTree.buildFileTree, if_true]
    rw [filterKeep_phase1, ← phase2_filterKeep]
  · intro key sz hends hko
    have hfilter : ([⟨key, sz⟩] : List R2ObjectItem).filter
        (fun o => !(endsWithS o.key "/.keep") && o.key != ".keep") = [] := by
      simp [List.filter_cons, hends]
    constructor
    · simp only [FileTree.buildFileTree, if_true, hfilter, List.foldl_nil,
        List.foldl_cons, hends, if_true]
      exact sortNodes_keepIns_nil _ _
    · simp only [FileTree.buildFileTree, if_true, hfilter, List.foldl_nil,
        List.foldl_cons, hends, if_true]
      rw [sortNodes_keepIns_nil]
      exact allFolders_keepIns_nil _ _

theorem keep_files_witness :
    FileTree.buildFileTree [⟨"docs/.keep", 0⟩] true =
        FileTree.keepIns [] (splitSlash (replaceFirstS "docs/.keep" "/.keep" "")) []
      ∧ allFolders (FileTree.buildFileTree [⟨"docs/.keep", 0⟩] true) = true :=
  keep_files_amended.2.2 "docs/.keep" 0 (by decide) (by decide)

/-! ## Claim C1: the trie property of `buildFileTree`

The development descends trees with `nodeAt` (the `find`-based lookup the
insertion loops themselves perform), maintains a well-formedness invariant
(`LevelWF`: distinct names per sibling list; folders carry `children`,
files do not), and characterizes one insertion by `ins_spec` below. -/

theorem nodeAt_nil : ∀ q, nodeAt q ([] : List TreeNode) = none := by
  intro q
  rcases q with _ | ⟨a, _ | ⟨r, rs⟩⟩ <;> rfl

theorem LevelWF_mem {L : List TreeNode} (h : LevelWF L) :
    ∀ n ∈ L, NodeWF n := by
  induction L with
  | nil => intro n hn; cases hn
  | cons x xs ih =>
    intro n hn
    cases h with
    | cons _ _ hx _ hxs =>
      rcases List.mem_cons.mp hn with rfl | hn'
      · exact hx
      · exact ih hxs n hn'

theorem NodeWF_folder {n : TreeNode} (h : NodeWF n)
    (ht : n.ntype = .folder) :
    ∃ ch, n.children = some ch ∧ LevelWF ch := by
  cases h with
  | fileWF nm p sz => simp [TreeNode.ntype] at ht
  | folderWF nm p sz ch hch => exact ⟨ch, rfl, hch⟩

theorem NodeWF_children_of_some {n : TreeNode} (h : NodeWF n)
    {ch : List TreeNode} (hch : n.children = some ch) :
    n.ntype = .folder ∧ LevelWF ch := by
  cases h with
  | fileWF nm p sz => simp [TreeNode.children] at hch
  | folderWF nm p sz ch' hch' =>
    simp only [TreeNode.children] at hch
    cases hch
    exact ⟨rfl, hch'⟩

theorem find_name {L : List TreeNode} {nm : String} {n : TreeNode}
    (h : FileTree.findNode L nm = some n) : n.name = nm := by
  have := List.find?_some h
  rwa [beq_iff_eq] at this

theorem find_wf {L : List TreeNode} (hwf : LevelWF L) {nm : String}
    {n : TreeNode} (h : FileTree.findNode L nm = some n) :
    NodeWF n ∧ n.name = nm :=
  ⟨LevelWF_mem hwf n (List.mem_of_find?_eq_some h), find_name h⟩

theorem findNode_none_iff (L : List TreeNode) (nm : String) :
    FileTree.findNode L nm = none ↔ ∀ n ∈ L, n.name ≠ nm := by
  unfold FileTree.findNode
  rw [List.find?_eq_none]
  constructor
  · intro h n hn he
    have := h n hn
    simp [he] at this
  · intro h n hn
    simp [h n hn]

theorem find_append_some {L : List TreeNode} {nm : String} {n : TreeNode}
    (h : FileTree.findNode L nm = some n) (L' : List TreeNode) :
    FileTree.findNode (L ++ L') nm = some n := by
  induction L with
  | nil => cases h
  | cons x xs ih =>
    unfold FileTree.findNode at h ⊢
    rw [List.find?_cons] at h
    rw [List.cons_append, List.find?_cons]
    cases hx : (x.name == nm) with
    | true => rw [hx] at h; exact h
    | false => rw [hx] at h; exact ih h

theorem find_append_none {L : List TreeNode} {nm : String}
    (h : FileTree.findNode L nm = none) (L' : List TreeNode) :
    FileTree.findNode (L ++ L') nm = FileTree.findNode L' nm := by
  induction L with
  | nil => rfl
  | cons x xs ih =>
    unfold FileTree.findNode at h ⊢
    rw [List.find?_cons] at h
    rw [List.cons_append, List.find?_cons]
    cases hx : (x.name == nm) with
    | true => rw [hx] at h; cases h
    | false => rw [hx] at h; exact ih h

theorem nodeAt_append_found {q : List String} {a : String}
    {q' : List String} (hq : q = a :: q') {L : List TreeNode}
    {m : TreeNode} (hf : FileTree.findNode L a = some m)
    (L' : List TreeNode) : nodeAt q (L ++ L') = nodeAt q L := by
  subst hq
  cases q' with
  | nil =>
    show FileTree.findNode (L ++ L') a = FileTree.findNode L a
    rw [find_append_some hf, hf]
  | cons r rs =>
    simp only [nodeAt, find_append_some hf, hf]

theorem nodeAt_append_missing {q : List String} {a : String}
    {q' : List String} (hq : q = a :: q') {L : List TreeNode}
    (hf : FileTree.findNode L a = none) (L' : List TreeNode) :
    nodeAt q (L ++ L') = nodeAt q L' := by
  subst hq
  cases q' with
  | nil =>
    show FileTree.findNode (L ++ L') a = FileTree.findNode L' a
    rw [find_append_none hf]
  | cons r rs =>
    simp only [nodeAt, find_append_none hf]

theorem nodeAt_cons_found {p : String} {q : List String}
    (hq : q ≠ []) {L : List TreeNode} {n : TreeNode}
    (hf : FileTree.findNode L p = some n) {ch : List TreeNode}
    (hch : n.children = some ch) : nodeAt (p :: q) L = nodeAt q ch := by
  cases q with
  | nil => exact absurd rfl hq
  | cons r rs =>
    simp only [nodeAt, hf, hch]

theorem find_set_self {L : List TreeNode} {nm : String} {n : TreeNode}
    (hf : FileTree.findNode L nm = some n) (ch : List TreeNode) :
    FileTree.findNode (FileTree.setChildrenOfFirst L nm ch) nm =
      some (withChildren n ch) := by
  induction L with
  | nil => cases hf
  | cons x xs ih =>
    rcases x with ⟨nm', p, t, sz, ch₀⟩
    unfold FileTree.findNode at hf
    rw [List.find?_cons] at hf
    simp only [TreeNode.name] at hf
    cases hx : (nm' == nm) with
    | true =>
      simp only [hx] at hf
      have hn := Option.some.inj hf
      subst hn
      simp only [FileTree.setChildrenOfFirst, hx, if_true]
      unfold FileTree.findNode
      rw [List.find?_cons]
      simp [TreeNode.name, hx, withChildren, TreeNode.path, TreeNode.ntype,
        TreeNode.size]
    | false =>
      simp only [hx] at hf
      simp only [FileTree.setChildrenOfFirst, hx, Bool.false_eq_true,
        if_false]
      unfold FileTree.findNode
      rw [List.find?_cons]
      simp only [TreeNode.name, hx]
      exact ih hf

theorem find_set_other {L : List TreeNode} {nm a : String}
    (hne : a ≠ nm) (ch : List TreeNode) :
    FileTree.findNode (FileTree.setChildrenOfFirst L nm ch) a =
      FileTree.findNode L a := by
  induction L with
  | nil => rfl
  | cons x xs ih =>
    rcases x with ⟨nm', p, t, sz, ch₀⟩
    cases hx : (nm' == nm) with
    | true =>
      simp only [FileTree.setChildrenOfFirst, hx, if_true]
      unfold FileTree.findNode
      rw [List.find?_cons, List.find?_cons]
      cases hxa : (nm' == a) with
      | true =>
        exfalso
        rw [beq_iff_eq] at hx hxa
        exact hne (hxa.symm.trans hx)
      | false => simp only [TreeNode.name, hxa]
    | false =>
      simp only [FileTree.setChildrenOfFirst, hx, Bool.false_eq_true,
        if_false]
      unfold FileTree.findNode
      rw [List.find?_cons, List.find?_cons]
      cases hxa : (nm' == a) with
      | true => simp only [TreeNode.name, hxa]
      | false =>
        simp only [TreeNode.name, hxa]
        exact ih

theorem set_mem_replaced {L : List TreeNode} {nm : String} {n : TreeNode}
    (hf : FileTree.findNode L nm = some n) (ch : List TreeNode) :
    withChildren n ch ∈ FileTree.setChildrenOfFirst L nm ch := by
  induction L with
  | nil => cases hf
  | cons x xs ih =>
    rcases x with ⟨nm', p, t, sz, ch₀⟩
    unfold FileTree.findNode at hf
    rw [List.find?_cons] at hf
    simp only [TreeNode.name] at hf
    cases hx : (nm' == nm) with
    | true =>
      simp only [hx] at hf
      have hn := Option.some.inj hf
      subst hn
      simp only [FileTree.setChildrenOfFirst, hx, if_true]
      simp [withChildren, TreeNode.name, TreeNode.path, TreeNode.ntype,
        TreeNode.size]
    | false =>
      simp only [hx] at hf
      simp only [FileTree.setChildrenOfFirst, hx, Bool.false_eq_true,
        if_false]
      exact List.mem_cons_of_mem _ (ih hf)

theorem set_map_name (L : List TreeNode) (nm : String)
    (ch : List TreeNode) :
    (FileTree.setChildrenOfFirst L nm ch).map TreeNode.name =
      L.map TreeNode.name := by
  induction L with
  | nil => rfl
  | cons x xs ih =>
    rcases x with ⟨nm', p, t, sz, ch₀⟩
    cases hx : (nm' == nm) with
    | true =>
      simp only [FileTree.setChildrenOfFirst, hx, if_true, List.map_cons]
      rfl
    | false =>
      simp only [FileTree.setChildrenOfFirst, hx, Bool.false_eq_true,
        if_false, List.map_cons, ih]

theorem nodeAt_set_other {a : String} {q' : List String} {nm : String}
    (hne : a ≠ nm) (L : List TreeNode) (ch : List TreeNode) :
    nodeAt (a :: q') (FileTree.setChildrenOfFirst L nm ch) =
      nodeAt (a :: q') L := by
  cases q' with
  | nil => exact find_set_other hne ch
  | cons r rs => simp only [nodeAt, find_set_other hne ch]

theorem endsOk_single {p : String} (h : endsOk [p]) : p ≠ "" := by
  intro he
  exact h.2 (by rw [he]; rfl)

theorem endsOk_tail {p r : String} {rs : List String}
    (h : endsOk (p :: r :: rs)) : endsOk (r :: rs) := by
  refine ⟨by simp, ?_⟩
  rw [← List.getLast?_cons_cons]
  exact h.2

theorem neSegs_cons_pos {p : String} (hp : p ≠ "") (rs : List String) :
    neSegs (p :: rs) = p :: neSegs rs := by
  simp [neSegs, List.filter_cons, hp]

theorem neSegs_cons_neg (rs : List String) :
    neSegs ("" :: rs) = neSegs rs := by
  simp [neSegs, List.filter_cons]

theorem neSegs_ne_nil : ∀ rest, endsOk rest → neSegs rest ≠ []
  | [], h => absurd rfl h.1
  | [p], h => by
    have hp : p ≠ "" := endsOk_single h
    rw [neSegs_cons_pos hp]
    simp
  | p :: r :: rs, h => by
    have htail := neSegs_ne_nil (r :: rs) (endsOk_tail h)
    by_cases hp : p = ""
    · subst hp
      rw [neSegs_cons_neg]
      exact htail
    · rw [neSegs_cons_pos hp]
      simp

theorem chainLevel_iff :
    ∀ (L : List TreeNode) (segs : List String) (sz : Int) (pth : String),
      chainLevel L segs sz pth = true ↔
        ∃ n ∈ L, chainNode n segs sz pth = true := by
  intro L segs sz pth
  induction L with
  | nil => simp [chainLevel]
  | cons n ns ih => simp [chainLevel, ih]

theorem chain_append {L : List TreeNode} {segs : List String} {sz : Int}
    {pth : String} (h : chainLevel L segs sz pth = true)
    (L' : List TreeNode) : chainLevel (L ++ L') segs sz pth = true := by
  rcases (chainLevel_iff L segs sz pth).mp h with ⟨n, hn, hcn⟩
  exact (chainLevel_iff _ segs sz pth).mpr
    ⟨n, List.mem_append_left _ hn, hcn⟩

theorem chain_single_append (L : List TreeNode) {x : TreeNode}
    {segs : List String} {sz : Int} {pth : String}
    (h : chainNode x segs sz pth = true) :
    chainLevel (L ++ [x]) segs sz pth = true :=
  (chainLevel_iff _ segs sz pth).mpr ⟨x, by simp, h⟩

theorem chain_set {L : List TreeNode} {nm : String}
    {ch ch' : List TreeNode} {n : TreeNode}
    (hmono : ∀ segs' sz' pth', chainLevel ch segs' sz' pth' = true →
      chainLevel ch' segs' sz' pth' = true)
    (hf : FileTree.findNode L nm = some n) (hch : n.children = some ch) :
    ∀ {segs : List String} {sz : Int} {pth : String},
      chainLevel L segs sz pth = true →
      chainLevel (FileTree.setChildrenOfFirst L nm ch') segs sz pth = true := by
  induction L with
  | nil => cases hf
  | cons x xs ih =>
    intro segs sz pth h
    rcases x with ⟨nm', p, t, szf, ch₀⟩
    unfold FileTree.findNode at hf
    rw [List.find?_cons] at hf
    simp only [TreeNode.name] at hf
    cases hx : (nm' == nm) with
    | true =>
      simp only [hx] at hf
      have hn := Option.some.inj hf
      subst hn
      simp only [TreeNode.children] at hch
      subst hch
      simp only [FileTree.setChildrenOfFirst, hx, if_true]
      simp only [chainLevel, Bool.or_eq_true] at h ⊢
      rcases h with h | h
      · left
        cases segs with
        | nil => simp [chainNode] at h
        | cons s segs' =>
          cases segs' with
          | nil => exact h
          | cons r rs' =>
            simp only [chainNode, Bool.and_eq_true] at h ⊢
            exact ⟨h.1, hmono _ _ _ h.2⟩
      · exact Or.inr h
    | false =>
      simp only [hx] at hf
      simp only [FileTree.setChildrenOfFirst, hx, Bool.false_eq_true,
        if_false]
      simp only [chainLevel, Bool.or_eq_true] at h ⊢
      rcases h with h | h
      · exact Or.inl h
      · exact Or.inr (ih hf h)

theorem wf_append {L : List TreeNode} (h : LevelWF L) {x : TreeNode}
    (hx : NodeWF x) (hfresh : ∀ n ∈ L, n.name ≠ x.name) :
    LevelWF (L ++ [x]) := by
  induction L with
  | nil => exact LevelWF.cons x [] hx (by simp) LevelWF.nil
  | cons y ys ih =>
    cases h with
    | cons _ _ hy hns hys =>
      refine LevelWF.cons y (ys ++ [x]) hy ?_
        (ih hys (fun n hn => hfresh n (List.mem_cons_of_mem _ hn)))
      intro m hm
      rcases List.mem_append.mp hm with hm' | hm'
      · exact hns m hm'
      · rcases List.mem_singleton.mp hm' with rfl
        intro he
        exact hfresh y (List.mem_cons_self _ _) he.symm

theorem set_wf {L : List TreeNode} (h : LevelWF L) {nm : String}
    {n : TreeNode} {ch : List TreeNode}
    (hf : FileTree.findNode L nm = some n)
    (hch0 : ∃ ch₀, n.children = some ch₀) (hch : LevelWF ch) :
    LevelWF (FileTree.setChildrenOfFirst L nm ch) := by
  induction L with
  | nil => cases hf
  | cons x xs ih =>
    rcases x with ⟨nm', p, t, szf, ch₀⟩
    cases h with
    | cons _ _ hxwf hns hxs =>
      unfold FileTree.findNode at hf
      rw [List.find?_cons] at hf
      simp only [TreeNode.name] at hf
      cases hx : (nm' == nm) with
      | true =>
        simp only [hx] at hf
        have hn := Option.some.inj hf
        subst hn
        rcases hch0 with ⟨ch₀', hch0'⟩
        simp only [TreeNode.children] at hch0'
        subst hch0'
        have hfolder : t = .folder := by
          cases hxwf with
          | folderWF => rfl
        subst hfolder
        simp only [FileTree.setChildrenOfFirst, hx, if_true]
        exact LevelWF.cons _ xs (NodeWF.folderWF nm' p szf ch hch) hns hxs
      | false =>
        simp only [hx] at hf
        simp only [FileTree.setChildrenOfFirst, hx, Bool.false_eq_true,
          if_false]
        refine LevelWF.cons _ _ hxwf ?_ (ih hxs hf)
        intro m hm
        have : m.name ∈ (FileTree.setChildrenOfFirst xs nm ch).map
            TreeNode.name := List.mem_map_of_mem _ hm
        rw [set_map_name] at this
        rcases List.mem_map.mp this with ⟨m₀, hm₀, he⟩
        rw [← he]
        exact hns m₀ hm₀

theorem ins_wf :
    ∀ (rest pre : List String) (sz : Int) (level : List TreeNode),
      LevelWF level → LevelWF (FileTree.ins sz pre rest level) := by
  intro rest
  induction rest with
  | nil => intro pre sz level h; exact h
  | cons p rs ih =>
    intro pre sz level h
    by_cases hp : p = ""
    · simp only [FileTree.ins, if_pos hp]
      exact ih _ _ _ h
    · simp only [FileTree.ins, if_neg hp]
      cases hf : FileTree.findNode level p with
      | none =>
        simp only [hf]
        have hfresh : ∀ n ∈ level, n.name ≠ p :=
          (findNode_none_iff _ _).mp hf
        cases rs with
        | nil =>
          simp only [List.isEmpty_nil, if_true]
          exact wf_append h (NodeWF.fileWF _ _ _) hfresh
        | cons r rs' =>
          simp only [List.isEmpty_cons, Bool.false_eq_true, if_false]
          exact wf_append h
            (NodeWF.folderWF _ _ _ _ (ih _ _ _ LevelWF.nil)) hfresh
      | some n =>
        simp only [hf]
        cases rs with
        | nil =>
          simp only [List.isEmpty_nil, if_true]
          exact h
        | cons r rs' =>
          simp only [List.isEmpty_cons, Bool.false_eq_true, if_false]
          cases hch : n.children with
          | some ch =>
            have hwf := (find_wf h hf).1
            have hlw := (NodeWF_children_of_some hwf hch).2
            exact set_wf h hf ⟨ch, hch⟩ (ih _ _ _ hlw)
          | none => exact ih _ _ _ h

theorem ins_chain_mono :
    ∀ (rest pre : List String) (sz : Int) (level : List TreeNode)
      (segs : List String) (sz' : Int) (pth : String),
      chainLevel level segs sz' pth = true →
      chainLevel (FileTree.ins sz pre rest level) segs sz' pth = true := by
  intro rest
  induction rest with
  | nil => intro pre sz level segs sz' pth h; exact h
  | cons p rs ih =>
    intro pre sz level segs sz' pth h
    by_cases hp : p = ""
    · simp only [FileTree.ins, if_pos hp]
      exact ih _ _ _ _ _ _ h
    · simp only [FileTree.ins, if_neg hp]
      cases hf : FileTree.findNode level p with
      | none =>
        simp only [hf]
        cases rs with
        | nil =>
          simp only [List.isEmpty_nil, if_true]
          exact chain_append h _
        | cons r rs' =>
          simp only [List.isEmpty_cons, Bool.false_eq_true, if_false]
          exact chain_append h _
      | some n =>
        simp only [hf]
        cases rs with
        | nil =>
          simp only [List.isEmpty_nil, if_true]
          exact h
        | cons r rs' =>
          simp only [List.isEmpty_cons, Bool.false_eq_true, if_false]
          cases hch : n.children with
          | some ch =>
            exact chain_set (fun segs'' sz'' pth'' => ih _ _ _ _ _ _)
              hf hch h
          | none => exact ih _ _ _ _ _ _ h

theorem keepIns_chain_mono :
    ∀ (rest pre : List String) (level : List TreeNode)
      (segs : List String) (sz' : Int) (pth : String),
      chainLevel level segs sz' pth = true →
      chainLevel (FileTree.keepIns pre rest level) segs sz' pth = true := by
  intro rest
  induction rest with
  | nil => intro pre level segs sz' pth h; exact h
  | cons p rs ih =>
    intro pre level segs sz' pth h
    by_cases hp : p = ""
    · simp only [FileTree.keepIns, if_pos hp]
      exact ih _ _ _ _ _ h
    · simp only [FileTree.keepIns, if_neg hp]
      cases hf : FileTree.findNode level p with
      | none =>
        simp only [hf]
        exact chain_append h _
      | some n =>
        simp only [hf]
        cases hch : n.children with
        | some ch =>
          exact chain_set (fun segs'' sz'' pth'' => ih _ _ _ _ _) hf hch h
        | none => exact ih _ _ _ _ _ h

theorem sortEach_mem {L : List TreeNode} {n : TreeNode} (hn : n ∈ L) :
    FileTree.sortOne n ∈ FileTree.sortEach L := by
  induction L with
  | nil => cases hn
  | cons x xs ih =>
    rcases List.mem_cons.mp hn with rfl | hn'
    · simp [FileTree.sortEach]
    · simp only [FileTree.sortEach]
      exact List.mem_cons_of_mem _ (ih hn')

theorem sortNodes_chain_aux :
    ∀ (N : ℕ) (L : List TreeNode), sizeOf L ≤ N →
      ∀ (segs : List String) (sz : Int) (pth : String),
        chainLevel L segs sz pth = true →
        chainLevel (FileTree.sortNodes L) segs sz pth = true := by
  intro N
  induction N using Nat.strong_induction_on with
  | _ N ih =>
    intro L hL segs sz pth h
    rcases (chainLevel_iff L segs sz pth).mp h with ⟨n, hn, hcn⟩
    apply (chainLevel_iff _ segs sz pth).mpr
    refine ⟨FileTree.sortOne n, ?_, ?_⟩
    · unfold FileTree.sortNodes
      exact (List.mem_insertionSort FileTree.nodeR).mpr (sortEach_mem hn)
    · rcases n with ⟨nm, p, t, szf, chOpt⟩
      cases chOpt with
      | none => exact hcn
      | some ch =>
        cases segs with
        | nil => simp [chainNode] at hcn
        | cons s segs' =>
          cases segs' with
          | nil => exact hcn
          | cons r rs' =>
            simp only [FileTree.sortOne, chainNode, Bool.and_eq_true]
              at hcn ⊢
            refine ⟨hcn.1, ?_⟩
            have hmem := List.sizeOf_lt_of_mem hn
            have hsz : sizeOf ch < N := by
              simp only [TreeNode.mk.sizeOf_spec, Option.some.sizeOf_spec]
                at hmem
              omega
            have := ih (sizeOf ch) hsz ch le_rfl (r :: rs') sz pth hcn.2
            unfold FileTree.sortNodes at this
            exact this

/-- Characterization of one `ins` run: under the well-formedness invariant,
when every strict prefix of the inserted key's non-empty segments is (if
present) a folder and the full segment list is absent, the insertion
creates the file chain (with the `slice.join` path), and any node of the
new tree either existed before or lies on the inserted path, files only at
its very end. -/
theorem ins_spec :
    ∀ (rest : List String), endsOk rest →
    ∀ (pre : List String) (sz : Int) (level : List TreeNode),
      LevelWF level →
      (∀ q n, q ≠ [] → q <+: neSegs rest → q ≠ neSegs rest →
        nodeAt q level = some n → n.ntype = .folder) →
      nodeAt (neSegs rest) level = none →
      (chainLevel (FileTree.ins sz pre rest level) (neSegs rest) sz
          (joinSlash (pre ++ rest)) = true)
      ∧ (∀ q n', nodeAt q (FileTree.ins sz pre rest level) = some n' →
          (∃ n, nodeAt q level = some n) ∨ (q ≠ [] ∧ q <+: neSegs rest))
      ∧ (∀ q n', nodeAt q (FileTree.ins sz pre rest level) = some n' →
          n'.ntype = .file →
          (∃ n, nodeAt q level = some n ∧ n.ntype = .file)
          ∨ q = neSegs rest) := by
  intro rest
  induction rest with
  | nil => intro h; exact absurd rfl h.1
  | cons p rs ih =>
    intro hend pre sz level hwf hpath habs
    by_cases hp : p = ""
    · subst hp
      cases rs with
      | nil => exact absurd rfl (endsOk_single hend)
      | cons r rs' =>
        have hend' := endsOk_tail hend
        have hins : FileTree.ins sz pre ("" :: r :: rs') level =
            FileTree.ins sz (pre ++ [""]) (r :: rs') level := by
          simp [FileTree.ins]
        rw [neSegs_cons_neg] at hpath habs
        rw [hins, neSegs_cons_neg,
          show pre ++ "" :: r :: rs' = (pre ++ [""]) ++ (r :: rs') from
            by simp]
        exact ih hend' _ sz level hwf hpath habs
    · have hne : neSegs (p :: rs) = p :: neSegs rs := neSegs_cons_pos hp rs
      cases rs with
      | nil =>
        have hnil : neSegs (p :: ([] : List String)) = [p] := by
          rw [hne]; rfl
        rw [hnil] at hpath habs ⊢
        have hfnone : FileTree.findNode level p = none := habs
        have hstep : FileTree.ins sz pre [p] level =
            level ++ [⟨p, joinSlash (pre ++ [p]), .file, some sz, none⟩] := by
          simp [FileTree.ins, if_neg hp, hfnone]
        rw [hstep]
        refine ⟨?_, ?_, ?_⟩
        · apply chain_single_append
          simp [chainNode]
        · intro q n' hq
          cases q with
          | nil => simp [nodeAt] at hq
          | cons a q' =>
            cases hfa : FileTree.findNode level a with
            | some m =>
              rw [nodeAt_append_found rfl hfa] at hq
              exact Or.inl ⟨n', hq⟩
            | none =>
              rw [nodeAt_append_missing rfl hfa] at hq
              cases q' with
              | nil =>
                have hq' : FileTree.findNode
                    [(⟨p, joinSlash (pre ++ [p]), .file, some sz, none⟩ :
                      TreeNode)] a = some n' := hq
                unfold FileTree.findNode at hq'
                rw [List.find?_cons] at hq'
                simp only [TreeNode.name] at hq'
                cases hpa : (p == a) with
                | true =>
                  right
                  rw [beq_iff_eq] at hpa
                  subst hpa
                  exact ⟨by simp, List.prefix_refl _⟩
                | false =>
                  simp only [hpa] at hq'
                  cases hq'
              | cons r' q'' =>
                exfalso
                simp only [nodeAt] at hq
                unfold FileTree.findNode at hq
                rw [List.find?_cons] at hq
                simp only [TreeNode.name] at hq
                cases hpa : (p == a) with
                | true =>
                  simp only [hpa, TreeNode.children] at hq
                  cases hq
                | false =>
                  simp only [hpa] at hq
                  cases hq
        · intro q n' hq hfile
          cases q with
          | nil => simp [nodeAt] at hq
          | cons a q' =>
            cases hfa : FileTree.findNode level a with
            | some m =>
              rw [nodeAt_append_found rfl hfa] at hq
              exact Or.inl ⟨n', hq, hfile⟩
            | none =>
              rw [nodeAt_append_missing rfl hfa] at hq
              cases q' with
              | nil =>
                have hq' : FileTree.findNode
                    [(⟨p, joinSlash (pre ++ [p]), .file, some sz, none⟩ :
                      TreeNode)] a = some n' := hq
                unfold FileTree.findNode at hq'
                rw [List.find?_cons] at hq'
                simp only [TreeNode.name] at hq'
                cases hpa : (p == a) with
                | true =>
                  right
                  rw [beq_iff_eq] at hpa
                  subst hpa
                  rfl
                | false =>
                  simp only [hpa] at hq'
                  cases hq'
              | cons r' q'' =>
                exfalso
                simp only [nodeAt] at hq
                unfold FileTree.findNode at hq
                rw [List.find?_cons] at hq
                simp only [TreeNode.name] at hq
                cases hpa : (p == a) with
                | true =>
                  simp only [hpa, TreeNode.children] at hq
                  cases hq
                | false =>
                  simp only [hpa] at hq
                  cases hq
      | cons r rs' =>
        have hendtail := endsOk_tail hend
        have hnertail : neSegs (r :: rs') ≠ [] := neSegs_ne_nil _ hendtail
        rw [hne] at hpath habs ⊢
        have hjoin : pre ++ p :: r :: rs' = (pre ++ [p]) ++ (r :: rs') := by
          simp
        rw [hjoin]
        cases hf : FileTree.findNode level p with
        | none =>
          have hstep : FileTree.ins sz pre (p :: r :: rs') level =
              level ++ [⟨p, joinSlash (pre ++ [p]), .folder, none,
                some (FileTree.ins sz (pre ++ [p]) (r :: rs') [])⟩] := by
            simp [FileTree.ins, if_neg hp, hf]
          rw [hstep]
          have hihpath : ∀ q n, q ≠ [] → q <+: neSegs (r :: rs') →
              q ≠ neSegs (r :: rs') → nodeAt q ([] : List TreeNode) = some n →
              n.ntype = .folder := by
            intro q n _ _ _ hq
            rw [nodeAt_nil] at hq
            cases hq
          obtain ⟨ihchain, ihpres, ihfile⟩ :=
            ih hendtail (pre ++ [p]) sz [] LevelWF.nil hihpath (nodeAt_nil _)
          refine ⟨?_, ?_, ?_⟩
          · apply chain_single_append
            rcases hsh : neSegs (r :: rs') with _ | ⟨s₀, segs₀⟩
            · exact absurd hsh hnertail
            · rw [hsh] at ihchain
              simp only [chainNode, Bool.and_eq_true]
              exact ⟨⟨by simp, by simp⟩, ihchain⟩
          · intro q n' hq
            cases q with
            | nil => simp [nodeAt] at hq
            | cons a q' =>
              cases hfa : FileTree.findNode level a with
              | some m =>
                rw [nodeAt_append_found rfl hfa] at hq
                exact Or.inl ⟨n', hq⟩
              | none =>
                rw [nodeAt_append_missing rfl hfa] at hq
                by_cases hpa : p = a
                · subst hpa
                  have hfQ : FileTree.findNode
                      [(⟨p, joinSlash (pre ++ [p]), .folder, none,
                        some (FileTree.ins sz (pre ++ [p]) (r :: rs') [])⟩ :
                        TreeNode)] p =
                      some ⟨p, joinSlash (pre ++ [p]), .folder, none,
                        some (FileTree.ins sz (pre ++ [p]) (r :: rs') [])⟩ := by
                    unfold FileTree.findNode
                    rw [List.find?_cons]
                    simp [TreeNode.name]
                  cases q' with
                  | nil =>
                    right
                    refine ⟨by simp, ?_⟩
                    rw [List.cons_prefix_cons]
                    exact ⟨rfl, List.nil_prefix⟩
                  | cons r' q'' =>
                    rw [nodeAt_cons_found (by simp) hfQ
                      (show TreeNode.children _ =
                        some (FileTree.ins sz (pre ++ [p]) (r :: rs') [])
                        from rfl)] at hq
                    rcases ihpres (r' :: q'') n' hq with ⟨m, hm⟩ | ⟨_, hpre⟩
                    · rw [nodeAt_nil] at hm
                      cases hm
                    · right
                      refine ⟨by simp, ?_⟩
                      rw [List.cons_prefix_cons]
                      exact ⟨rfl, hpre⟩
                · exfalso
                  have hfa' : FileTree.findNode
                      [(⟨p, joinSlash (pre ++ [p]), .folder, none,
                        some (FileTree.ins sz (pre ++ [p]) (r :: rs') [])⟩ :
                        TreeNode)] a = none := by
                    unfold FileTree.findNode
                    rw [List.find?_cons]
                    simp only [TreeNode.name]
                    have : (p == a) = false := by simp [hpa]
                    simp [this]
                  cases q' with
                  | nil => rw [show nodeAt [a] _ = _ from hfa'] at hq; cases hq
                  | cons r' q'' =>
                    simp only [nodeAt, hfa'] at hq
                    exact Option.noConfusion hq
          · intro q n' hq hfile
            cases q with
            | nil => simp [nodeAt] at hq
            | cons a q' =>
              cases hfa : FileTree.findNode level a with
              | some m =>
                rw [nodeAt_append_found rfl hfa] at hq
                exact Or.inl ⟨n', hq, hfile⟩
              | none =>
                rw [nodeAt_append_missing rfl hfa] at hq
                by_cases hpa : p = a
                · subst hpa
                  have hfQ : FileTree.findNode
                      [(⟨p, joinSlash (pre ++ [p]), .folder, none,
                        some (FileTree.ins sz (pre ++ [p]) (r :: rs') [])⟩ :
                        TreeNode)] p =
                      some ⟨p, joinSlash (pre ++ [p]), .folder, none,
                        some (FileTree.ins sz (pre ++ [p]) (r :: rs') [])⟩ := by
                    unfold FileTree.findNode
                    rw [List.find?_cons]
                    simp [TreeNode.name]
                  cases q' with
                  | nil =>
                    exfalso
                    have hq' := hq
                    rw [show nodeAt [p] _ = _ from hfQ] at hq'
                    have := Option.some.inj hq'
                    rw [← this] at hfile
                    simp [TreeNode.ntype] at hfile
                  | cons r' q'' =>
                    rw [nodeAt_cons_found (by simp) hfQ
                      (show TreeNode.children _ =
                        some (FileTree.ins sz (pre ++ [p]) (r :: rs') [])
                        from rfl)] at hq
                    rcases ihfile (r' :: q'') n' hq hfile with
                      ⟨m, hm, _⟩ | heq
                    · rw [nodeAt_nil] at hm
                      cases hm
                    · right
                      rw [heq]
                · exfalso
                  have hfa' : FileTree.findNode
                      [(⟨p, joinSlash (pre ++ [p]), .folder, none,
                        some (FileTree.ins sz (pre ++ [p]) (r :: rs') [])⟩ :
                        TreeNode)] a = none := by
                    unfold FileTree.findNode
                    rw [List.find?_cons]
                    simp only [TreeNode.name]
                    have : (p == a) = false := by simp [hpa]
                    simp [this]
                  cases q' with
                  | nil => rw [show nodeAt [a] _ = _ from hfa'] at hq; cases hq
                  | cons r' q'' =>
                    simp only [nodeAt, hfa'] at hq
                    exact Option.noConfusion hq
        | some n =>
          have hpfound : nodeAt [p] level = some n := hf
          have hfolder : n.ntype = .folder := by
            apply hpath [p] n (by simp) ?_ ?_ hpfound
            · rw [List.cons_prefix_cons]
              exact ⟨rfl, List.nil_prefix⟩
            · intro he
              have := List.cons.inj he
              exact hnertail this.2.symm
          obtain ⟨hnwf, hname⟩ := find_wf hwf hf
          obtain ⟨ch, hch, hchwf⟩ := NodeWF_folder hnwf hfolder
          have hstep : FileTree.ins sz pre (p :: r :: rs') level =
              FileTree.setChildrenOfFirst level p
                (FileTree.ins sz (pre ++ [p]) (r :: rs') ch) := by
            simp [FileTree.ins, if_neg hp, hf, hch]
          rw [hstep]
          have hihpath : ∀ q m, q ≠ [] → q <+: neSegs (r :: rs') →
              q ≠ neSegs (r :: rs') → nodeAt q ch = some m →
              m.ntype = .folder := by
            intro q m hq0 hq1 hq2 hq3
            apply hpath (p :: q) m (by simp) ?_ ?_ ?_
            · rw [List.cons_prefix_cons]
              exact ⟨rfl, hq1⟩
            · intro he
              exact hq2 (List.cons.inj he).2
            · rw [nodeAt_cons_found hq0 hf hch]
              exact hq3
          have hihabs : nodeAt (neSegs (r :: rs')) ch = none := by
            rw [← nodeAt_cons_found hnertail hf hch]
            exact habs
          obtain ⟨ihchain, ihpres, ihfile⟩ :=
            ih hendtail (pre ++ [p]) sz ch hchwf hihpath hihabs
          refine ⟨?_, ?_, ?_⟩
          · apply (chainLevel_iff _ _ _ _).mpr
            refine ⟨withChildren n
              (FileTree.ins sz (pre ++ [p]) (r :: rs') ch),
              set_mem_replaced hf _, ?_⟩
            rcases hsh : neSegs (r :: rs') with _ | ⟨s₀, segs₀⟩
            · exact absurd hsh hnertail
            · rw [hsh] at ihchain
              rcases n with ⟨n₁, n₂, n₃, n₄, n₅⟩
              simp only [TreeNode.name] at hname
              simp only [TreeNode.ntype] at hfolder
              subst hname
              subst hfolder
              simp only [withChildren, TreeNode.name, TreeNode.path,
                TreeNode.ntype, TreeNode.size, chainNode, Bool.and_eq_true]
              exact ⟨⟨by simp, by simp⟩, ihchain⟩
          · intro q n' hq
            cases q with
            | nil => simp [nodeAt] at hq
            | cons a q' =>
              by_cases hpa : a = p
              · subst hpa
                cases q' with
                | nil =>
                  exact Or.inl ⟨n, hpfound⟩
                | cons r' q'' =>
                  have hfs := find_set_self hf
                    (FileTree.ins sz (pre ++ [a]) (r :: rs') ch)
                  rw [nodeAt_cons_found (by simp) hfs
                    (show TreeNode.children _ = _ from rfl)] at hq
                  rcases ihpres (r' :: q'') n' hq with ⟨m, hm⟩ | ⟨_, hpre⟩
                  · left
                    refine ⟨m, ?_⟩
                    rw [nodeAt_cons_found (by simp) hf hch]
                    exact hm
                  · right
                    refine ⟨by simp, ?_⟩
                    rw [List.cons_prefix_cons]
                    exact ⟨rfl, hpre⟩
              · rw [nodeAt_set_other hpa] at hq
                exact Or.inl ⟨n', hq⟩
          · intro q n' hq hfile
            cases q with
            | nil => simp [nodeAt] at hq
            | cons a q' =>
              by_cases hpa : a = p
              · subst hpa
                cases q' with
                | nil =>
                  exfalso
                  have hfs := find_set_self hf
                    (FileTree.ins sz (pre ++ [a]) (r :: rs') ch)
                  have hq' : FileTree.findNode
                      (FileTree.setChildrenOfFirst level a
                        (FileTree.ins sz (pre ++ [a]) (r :: rs') ch)) a
                      = some n' := hq
                  rw [hfs] at hq'
                  have := Option.some.inj hq'
                  rw [← this] at hfile
                  have hfile' : n.ntype = .file := hfile
                  rw [hfolder] at hfile'
                  cases hfile'
                | cons r' q'' =>
                  have hfs := find_set_self hf
                    (FileTree.ins sz (pre ++ [a]) (r :: rs') ch)
                  rw [nodeAt_cons_found (by simp) hfs
                    (show TreeNode.children _ = _ from rfl)] at hq
                  rcases ihfile (r' :: q'') n' hq hfile with
                    ⟨m, hm, hmf⟩ | heq
                  · left
                    refine ⟨m, ?_, hmf⟩
                    rw [nodeAt_cons_found (by simp) hf hch]
                    exact hm
                  · right
                    rw [heq]
              · rw [nodeAt_set_other hpa] at hq
                exact Or.inl ⟨n', hq, hfile⟩

theorem phase1_fold :
    ∀ (l K : List R2ObjectItem) (root : List TreeNode),
      (∀ o ∈ l, endsOk (splitSlash o.key)) →
      List.Pairwise NonComparable l →
      (∀ o ∈ K, ∀ o' ∈ l, NonComparable o o') →
      LevelWF root →
      (∀ q n, nodeAt q root = some n → ∃ o' ∈ K, q ≠ [] ∧ q <+: objSegs o') →
      (∀ q n, nodeAt q root = some n → n.ntype = .file →
        ∃ o' ∈ K, q = objSegs o') →
      (∀ o ∈ K, chainLevel root (objSegs o) o.size
        (joinSlash (splitSlash o.key)) = true) →
      LevelWF (l.foldl
          (fun L o => FileTree.ins o.size [] (splitSlash o.key) L) root)
      ∧ (∀ o ∈ K ++ l, chainLevel
          (l.foldl (fun L o => FileTree.ins o.size [] (splitSlash o.key) L)
            root)
          (objSegs o) o.size (joinSlash (splitSlash o.key)) = true)
      ∧ (∀ q n, nodeAt q
          (l.foldl (fun L o => FileTree.ins o.size [] (splitSlash o.key) L)
            root) = some n → ∃ o' ∈ K ++ l, q ≠ [] ∧ q <+: objSegs o')
      ∧ (∀ q n, nodeAt q
          (l.foldl (fun L o => FileTree.ins o.size [] (splitSlash o.key) L)
            root) = some n → n.ntype = .file →
          ∃ o' ∈ K ++ l, q = objSegs o') := by
  intro l
  induction l with
  | nil =>
    intro K root _ _ _ hwf hP hF hC
    simp only [List.foldl_nil, List.append_nil]
    exact ⟨hwf, hC, hP, hF⟩
  | cons o os ih =>
    intro K root hends hpw hK hwf hP hF hC
    have hend : endsOk (splitSlash o.key) :=
      hends o (List.mem_cons_self _ _)
    have hpath : ∀ q n, q ≠ [] → q <+: neSegs (splitSlash o.key) →
        q ≠ neSegs (splitSlash o.key) → nodeAt q root = some n →
        n.ntype = .folder := by
      intro q n hq0 hq1 hq2 hq3
      cases hnt : n.ntype with
      | folder => rfl
      | file =>
        exfalso
        rcases hF q n hq3 hnt with ⟨o', ho', rfl⟩
        exact (hK o' ho' o (List.mem_cons_self _ _)).1 hq1
    have habs : nodeAt (neSegs (splitSlash o.key)) root = none := by
      cases h : nodeAt (neSegs (splitSlash o.key)) root with
      | none => rfl
      | some n =>
        exfalso
        rcases hP _ n h with ⟨o', ho', _, hpre⟩
        exact (hK o' ho' o (List.mem_cons_self _ _)).2 hpre
    obtain ⟨hchain, hpres', hfile'⟩ :=
      ins_spec (splitSlash o.key) hend [] o.size root hwf hpath habs
    rw [List.nil_append] at hchain
    simp only [List.foldl_cons]
    have hres := ih (K ++ [o])
      (FileTree.ins o.size [] (splitSlash o.key) root)
      (fun o' ho' => hends o' (List.mem_cons_of_mem _ ho'))
      (List.pairwise_cons.mp hpw).2
      (by
        intro o' ho' o'' ho''
        rcases List.mem_append.mp ho' with h' | h'
        · exact hK o' h' o'' (List.mem_cons_of_mem _ ho'')
        · rcases List.mem_singleton.mp h' with rfl
          exact (List.pairwise_cons.mp hpw).1 o'' ho'')
      (ins_wf _ _ _ _ hwf)
      (by
        intro q n hq
        rcases hpres' q n hq with ⟨m, hm⟩ | ⟨hq0, hpre⟩
        · rcases hP q m hm with ⟨o', ho', hx⟩
          exact ⟨o', List.mem_append_left _ ho', hx⟩
        · exact ⟨o, List.mem_append_right _ (List.mem_singleton_self _),
            hq0, hpre⟩)
      (by
        intro q n hq hnt
        rcases hfile' q n hq hnt with ⟨m, hm, hmt⟩ | rfl
        · rcases hF q m hm hmt with ⟨o', ho', hx⟩
          exact ⟨o', List.mem_append_left _ ho', hx⟩
        · exact ⟨o, List.mem_append_right _ (List.mem_singleton_self _),
            rfl⟩)
      (by
        intro o' ho'
        rcases List.mem_append.mp ho' with h' | h'
        · exact ins_chain_mono _ _ _ _ _ _ _ (hC o' h')
        · rcases List.mem_singleton.mp h' with rfl
          exact hchain)
    have hKo : (K ++ [o]) ++ os = K ++ o :: os := by simp
    rw [hKo] at hres
    exact hres

theorem phase2_chain_mono :
    ∀ (l : List R2ObjectItem) (root : List TreeNode) (segs : List String)
      (sz : Int) (pth : String),
      chainLevel root segs sz pth = true →
      chainLevel
        (l.foldl
          (fun L o =>
            if endsWithS o.key "/.keep" then
              FileTree.keepIns [] (splitSlash (replaceFirstS o.key "/.keep" "")) L
            else L)
          root) segs sz pth = true := by
  intro l
  induction l with
  | nil => intro root segs sz pth h; exact h
  | cons o os ih =>
    intro root segs sz pth h
    simp only [List.foldl_cons]
    apply ih
    by_cases hends : endsWithS o.key "/.keep" = true
    · simp only [hends, if_true]
      exact keepIns_chain_mono _ _ _ _ _ _ h
    · simp only [Bool.not_eq_true] at hends
      simp only [hends, Bool.false_eq_true, if_false]
      exact h

theorem buildFileTree_decomp (objects : List R2ObjectItem) (flag : Bool) :
    FileTree.buildFileTree objects flag =
      FileTree.sortNodes
        (if flag then
          objects.foldl
            (fun L o =>
              if endsWithS o.key "/.keep" then
                FileTree.keepIns []
                  (splitSlash (replaceFirstS o.key "/.keep" "")) L
              else L)
            ((FileTree.filteredObjects objects flag).foldl
              (fun L o => FileTree.ins o.size [] (splitSlash o.key) L) [])
        else
          (FileTree.filteredObjects objects flag).foldl
            (fun L o => FileTree.ins o.size [] (splitSlash o.key) L) []) := by
  cases flag <;> rfl

/-- C1 counterexample: `buildFileTree` is not a trie on arbitrary inputs.
On `[a (file), a/b]` the key `a` is inserted first as a file node; the
later key `a/b` then finds a node without `children` for its first
segment, stays at the root level, and deposits the file `b` there — so the
segment `a` of `a/b` is not a folder and `b` is not nested: no chain
`a (folder) / b (file of size 2)` exists, although `a/b` survives the
filter. -/
theorem buildFileTree_trie_cex :
    (⟨"a/b", 2⟩ : R2ObjectItem) ∈
        FileTree.filteredObjects [⟨"a", 1⟩, ⟨"a/b", 2⟩] true
    ∧ chainLevel (FileTree.buildFileTree [⟨"a", 1⟩, ⟨"a/b", 2⟩] true)
        (neSegs (splitSlash "a/b")) 2 (joinSlash (splitSlash "a/b")) = false
    ∧ (FileTree.buildFileTree [⟨"a", 1⟩, ⟨"a/b", 2⟩] true).map
        TreeNode.ntype = [.file, .file] := by
  refine ⟨?_, ?_, ?_⟩ <;> decide

/-- C1 amended: `buildFileTree` builds the path-segment trie for every
object list whose (post-filter) keys end in a non-empty segment and whose
non-empty-segment lists are pairwise non-prefix-comparable: each such
object's key yields a chain of nodes named after its non-empty segments,
all intermediate nodes folders, ending in a file node carrying the
object's size whose path is the '/'-join of the key's segments. -/
theorem buildFileTree_trie_amended (objects : List R2ObjectItem)
    (flag : Bool)
    (hends : ∀ o ∈ FileTree.filteredObjects objects flag,
      endsOk (splitSlash o.key))
    (hpw : List.Pairwise NonComparable
      (FileTree.filteredObjects objects flag)) :
    ∀ o ∈ FileTree.filteredObjects objects flag,
      chainLevel (FileTree.buildFileTree objects flag)
        (neSegs (splitSlash o.key)) o.size
        (joinSlash (splitSlash o.key)) = true := by
  intro o ho
  obtain ⟨hwfF, hchainsF, _, _⟩ :=
    phase1_fold (FileTree.filteredObjects objects flag) [] []
      hends hpw (by intro o' h; cases h) LevelWF.nil
      (by intro q n h; rw [nodeAt_nil] at h; cases h)
      (by intro q n h _; rw [nodeAt_nil] at h; cases h)
      (by intro o' h; cases h)
  have hchain := hchainsF o (by simpa using ho)
  rw [buildFileTree_decomp]
  apply sortNodes_chain_aux _ _ le_rfl
  cases flag
  · simpa [objSegs] using hchain
  · simp only [if_true]
    exact phase2_chain_mono _ _ _ _ _ hchain

theorem buildFileTree_trie_witness :
    chainLevel
      (FileTree.buildFileTree
        [⟨"docs/readme.md", 10⟩, ⟨"docs/img/logo.png", 5⟩, ⟨"a.txt", 3⟩]
        true)
      (neSegs (splitSlash "docs/img/logo.png")) 5
      (joinSlash (splitSlash "docs/img/logo.png")) = true :=
  buildFileTree_trie_amended
    [⟨"docs/readme.md", 10⟩, ⟨"docs/img/logo.png", 5⟩, ⟨"a.txt", 3⟩] true
    (by decide) (by decide) ⟨"docs/img/logo.png", 5⟩ (by decide)
